import Mathlib

/-!
Verification of the IIIF Image API request model (Rust crate iiif).

This file gives a shallow embedding in Lean 4 of the request-grammar
parsers, renderers and geometry resolvers of the crate, and proves the
frozen claims about them.

Modelling conventions:
- Rust strings are modelled as List Char; trimming and lowercasing are
  modelled for the ASCII range (the grammars only involve ASCII input).
- Rust u32 is modelled as a natural number; the parser enforces the
  2 to the 32 bound exactly as Rust u32 parsing does, and the cast
  expression (f).round() as u32 is modelled with its saturating behavior.
- Rust f32 values are modelled as exact rationals: a parsed decimal
  literal denotes its exact decimal value, and arithmetic on it is exact.
  The non-finite f32 forms (inf, NaN) and f32 rounding of long literals
  are outside the model.
- Pixel-level raster operations supplied by the external image and
  imageproc crates (rotate90, fliph, grayscale, the codecs) are modelled
  as opaque parameters; all decision logic owned by the crate itself is
  embedded concretely from the source.
-/

namespace Iiif

/-! Basic character and list utilities mirroring the Rust str methods. -/

/-- ASCII whitespace test, modelling char::is_whitespace on the ASCII range. -/
def is_ws (c : Char) : Bool :=
  c.toNat = 32 || c.toNat = 9 || c.toNat = 10 || c.toNat = 13

/-- Drop trailing whitespace, the right half of str::trim. -/
def trim_right (l : List Char) : List Char :=
  (l.reverse.dropWhile is_ws).reverse

/-- Model of str::trim: drop leading and trailing whitespace. -/
def trim_chars (l : List Char) : List Char :=
  trim_right (l.dropWhile is_ws)

/-- ASCII lowercasing of one character, modelling str::to_lowercase. -/
def lower_char (c : Char) : Char :=
  if 65 ≤ c.toNat ∧ c.toNat ≤ 90 then Char.ofNat (c.toNat + 32) else c

/-- ASCII lowercasing of a string. -/
def lower_chars (l : List Char) : List Char :=
  l.map lower_char

/-- Model of str::split(sep): always returns one more part than there are
separators, so the empty string yields one empty part. -/
def split_on (sep : Char) : List Char → List (List Char)
  | [] => [[]]
  | c :: rest =>
    match split_on sep rest with
    | [] => [[]]
    | h :: t => if c = sep then [] :: h :: t else (c :: h) :: t

/-- Model of str::strip_prefix for a literal prefix. -/
def strip_pfx : List Char → List Char → Option (List Char)
  | [], l => some l
  | _ :: _, [] => none
  | p :: ps, c :: cs => if c = p then strip_pfx ps cs else none

/-- ASCII decimal digit test. -/
def digit? (c : Char) : Bool :=
  48 ≤ c.toNat && c.toNat ≤ 57

/-- Numeric value of an ASCII digit character. -/
def digit_val (c : Char) : ℕ :=
  c.toNat - 48

/-- Value of a digit string read most significant first. -/
def val_digits (l : List Char) : ℕ :=
  l.foldl (fun a c => 10 * a + digit_val c) 0

/-- Drop one leading plus sign if present. -/
def drop_plus (l : List Char) : List Char :=
  match l with
  | c :: r => if c = '+' then r else l
  | [] => l

/-- Digit part of u32 parsing: one or more ASCII digits whose value fits
in 32 bits. -/
def parse_u32_core (m : List Char) : Option ℕ :=
  if m ≠ [] ∧ m.all digit? ∧ val_digits m < 2 ^ 32 then some (val_digits m) else none

/-- Model of u32 parsing from a string: an optional leading plus sign, then
one or more ASCII digits, with the value required to fit in 32 bits. -/
def parse_u32 (l : List Char) : Option ℕ :=
  parse_u32_core (drop_plus l)

/-- ASCII digit character for a value below ten. -/
def digit_char (n : ℕ) : Char :=
  Char.ofNat (48 + n)

/-- Fuel-driven accumulator loop producing the decimal digits of a natural
number, most significant first, in front of the accumulator. -/
def ntc_aux : ℕ → ℕ → List Char → List Char
  | 0, _, acc => acc
  | fuel + 1, n, acc =>
    let acc' := digit_char (n % 10) :: acc
    if n < 10 then acc' else ntc_aux fuel (n / 10) acc'

/-- Decimal rendering of a natural number, the Display form of u32. -/
def nat_to_chars (n : ℕ) : List Char :=
  ntc_aux (n + 1) n []

/-! Lemmas about the character utilities. -/

theorem digit_char_toNat {n : ℕ} (h : n < 10) : (digit_char n).toNat = 48 + n := by
  interval_cases n <;> decide

theorem digit_char_is_digit {n : ℕ} (h : n < 10) : digit? (digit_char n) = true := by
  interval_cases n <;> decide

theorem digit_val_digit_char {n : ℕ} (h : n < 10) : digit_val (digit_char n) = n := by
  interval_cases n <;> decide

theorem split_on_no_sep {sep : Char} {l : List Char} (h : sep ∉ l) :
    split_on sep l = [l] := by
  induction l with
  | nil => rfl
  | cons c rest ih =>
    have hc : c ≠ sep := fun hc => h (hc ▸ List.mem_cons_self c rest)
    have hr : sep ∉ rest := fun hm => h (List.mem_cons_of_mem _ hm)
    simp [split_on, ih hr, hc]

theorem split_on_append {sep : Char} {a : List Char} (b : List Char) (h : sep ∉ a) :
    split_on sep (a ++ sep :: b) = a :: split_on sep b := by
  induction a with
  | nil =>
    cases hb : split_on sep b with
    | nil => simp [split_on, hb]
    | cons x t => simp [split_on, hb]
  | cons c rest ih =>
    have hc : c ≠ sep := fun hc => h (hc ▸ List.mem_cons_self c rest)
    have hr : sep ∉ rest := fun hm => h (List.mem_cons_of_mem _ hm)
    have hrec := ih hr
    simp only [List.cons_append, split_on]
    rw [show rest.append (sep :: b) = rest ++ sep :: b from rfl, hrec]
    simp [hc]

theorem strip_pfx_append (p l : List Char) : strip_pfx p (p ++ l) = some l := by
  induction p with
  | nil => rfl
  | cons c ps ih => simp [strip_pfx, ih]

theorem val_digits_append_one (l : List Char) (c : Char) :
    val_digits (l ++ [c]) = 10 * val_digits l + digit_val c := by
  have h : ∀ (init : ℕ) (m : List Char),
      m.foldl (fun a c => 10 * a + digit_val c) init =
      List.foldl (fun a c => 10 * a + digit_val c) init m := fun _ _ => rfl
  simp [val_digits, List.foldl_append]

/-- Core correctness of the fuel-driven digit loop: with enough fuel it
produces a nonempty all-digit prefix whose value is the input. -/
theorem ntc_aux_spec :
    ∀ (fuel n : ℕ) (acc : List Char), n < 10 ^ (fuel + 1) →
    ∃ ds : List Char, ntc_aux (fuel + 1) n acc = ds ++ acc ∧ ds ≠ [] ∧
      (∀ c ∈ ds, digit? c = true) ∧ val_digits ds = n := by
  intro fuel
  induction fuel with
  | zero =>
    intro n acc h
    have hn : n < 10 := by simpa using h
    refine ⟨[digit_char (n % 10)], by simp [ntc_aux, hn], by simp, ?_, ?_⟩
    · intro c hc
      simp only [List.mem_singleton] at hc
      subst hc
      exact digit_char_is_digit (Nat.mod_lt _ (by norm_num))
    · have hmod : n % 10 = n := Nat.mod_eq_of_lt hn
      simp [val_digits, hmod, digit_val_digit_char hn]
  | succ fuel ih =>
    intro n acc h
    by_cases hn : n < 10
    · refine ⟨[digit_char (n % 10)], by simp [ntc_aux, hn], by simp, ?_, ?_⟩
      · intro c hc
        simp only [List.mem_singleton] at hc
        subst hc
        exact digit_char_is_digit (Nat.mod_lt _ (by norm_num))
      · have hmod : n % 10 = n := Nat.mod_eq_of_lt hn
        simp [val_digits, hmod, digit_val_digit_char hn]
    · have hdiv : n / 10 < 10 ^ (fuel + 1) := by
        rw [Nat.div_lt_iff_lt_mul (by norm_num)]
        calc n < 10 ^ (fuel + 2) := h
        _ = 10 ^ (fuel + 1) * 10 := by ring
      obtain ⟨ds, hds, hne, hdig, hval⟩ := ih (n / 10) (digit_char (n % 10) :: acc) hdiv
      refine ⟨ds ++ [digit_char (n % 10)], ?_, by simp, ?_, ?_⟩
      · show ntc_aux (fuel + 2) n acc = _
        rw [ntc_aux]
        simp only [hn, if_false]
        rw [hds, List.append_assoc, List.singleton_append]
      · intro c hc
        rcases List.mem_append.mp hc with hc | hc
        · exact hdig c hc
        · simp only [List.mem_singleton] at hc
          subst hc
          exact digit_char_is_digit (Nat.mod_lt _ (by norm_num))
      · rw [val_digits_append_one, hval,
          digit_val_digit_char (Nat.mod_lt _ (show 0 < 10 by norm_num))]
        omega

theorem lt_ten_pow_succ (n : ℕ) : n < 10 ^ (n + 1) := by
  calc n < 10 ^ n := Nat.lt_pow_self (by norm_num) n
  _ ≤ 10 ^ (n + 1) := Nat.pow_le_pow_right (by norm_num) (Nat.le_succ n)

/-- The decimal rendering of a natural number is nonempty, consists of
digits only, and evaluates back to the number. -/
theorem nat_to_chars_spec (n : ℕ) :
    nat_to_chars n ≠ [] ∧ (∀ c ∈ nat_to_chars n, digit? c = true) ∧
      val_digits (nat_to_chars n) = n := by
  obtain ⟨ds, hds, hne, hdig, hval⟩ := ntc_aux_spec n n [] (lt_ten_pow_succ n)
  rw [nat_to_chars, hds, List.append_nil]
  exact ⟨hne, hdig, hval⟩

theorem digit_not_plus {c : Char} (h : digit? c = true) : c ≠ '+' := by
  intro hc
  subst hc
  simp [digit?] at h

theorem digit_not_ws {c : Char} (h : digit? c = true) : is_ws c = false := by
  simp only [digit?, Bool.and_eq_true, decide_eq_true_eq] at h
  simp only [is_ws, Bool.or_eq_false_iff, decide_eq_false_iff_not]
  omega

theorem drop_plus_of_digits {l : List Char} (hne : l ≠ [])
    (h : ∀ c ∈ l, digit? c = true) : drop_plus l = l := by
  cases l with
  | nil => rfl
  | cons c r =>
    have := digit_not_plus (h c (List.mem_cons_self c r))
    simp [drop_plus, this]

/-- Round trip for natural-number rendering through u32 parsing. -/
theorem parse_u32_nat_to_chars {n : ℕ} (h : n < 2 ^ 32) :
    parse_u32 (nat_to_chars n) = some n := by
  obtain ⟨hne, hdig, hval⟩ := nat_to_chars_spec n
  have hall : (nat_to_chars n).all digit? = true := List.all_eq_true.mpr hdig
  simp only [parse_u32, parse_u32_core]
  rw [drop_plus_of_digits hne hdig]
  rw [if_pos ⟨hne, hall, by rw [hval]; exact h⟩, hval]

/-! Exact-rational model of f32 parsing and display.

Rust parses a float literal with optional sign, integer digits, an
optional fraction and an optional decimal exponent; the model computes
the exact decimal value as a rational. Display of an f32 prints the
shortest decimal digits, never in exponent form; the model prints the
exact decimal expansion of a rational whose denominator divides a power
of ten, which agrees with Rust on every value the parser model produces. -/

/-- Split an optional leading sign off a numeric literal. -/
def split_sign (l : List Char) : Bool × List Char :=
  match l with
  | c :: r => if c = '-' then (true, r) else if c = '+' then (false, r) else (false, l)
  | [] => (false, l)

/-- Exponent part of f32 parsing: an optional sign and one or more digits.
The mantissa is passed as an integer m together with the length of the
fraction, so the value is m times ten to the (exponent minus fracLen). -/
def parse_exp (m : ℤ) (fracLen : ℕ) (r : List Char) : Option ℚ :=
  let s := split_sign r
  if s.2 ≠ [] ∧ s.2.all digit? then
    if s.1 then some (Rat.divInt m (10 ^ (fracLen + val_digits s.2)))
    else if fracLen ≤ val_digits s.2 then
      some ((m * 10 ^ (val_digits s.2 - fracLen) : ℤ) : ℚ)
    else some (Rat.divInt m (10 ^ (fracLen - val_digits s.2)))
  else none

/-- Fraction part of f32 parsing: a leading dot opens a run of fraction
digits, anything else leaves the remainder untouched. -/
def dot_split (r1 : List Char) : List Char × List Char :=
  match r1 with
  | c :: r => if c = '.' then (r.takeWhile digit?, r.dropWhile digit?) else ([], r1)
  | [] => ([], r1)

/-- Remainder dispatch of f32 parsing: the end of input closes the
literal, a letter e or E opens the exponent, anything else is an error. -/
def tail_dispatch (sm : ℤ) (fracLen : ℕ) : List Char → Option ℚ
  | [] => some (Rat.divInt sm (10 ^ fracLen))
  | c :: r3 => if c = 'e' ∨ c = 'E' then parse_exp sm fracLen r3 else none

/-- Model of f32 parsing from a string, with the exact rational value.
The non-finite forms inf and NaN are outside the model. -/
def parse_f32 (l : List Char) : Option ℚ :=
  let s := split_sign l
  let ip := s.2.takeWhile digit?
  let r1 := s.2.dropWhile digit?
  let fr := dot_split r1
  if ip = [] ∧ fr.1 = [] then none
  else
    let m : ℤ := (val_digits ip * 10 ^ fr.1.length + val_digits fr.1 : ℕ)
    let sm : ℤ := if s.1 then -m else m
    tail_dispatch sm fr.1.length fr.2

/-- Fuel-driven count of the multiplicity of p in n. -/
def pv_aux : ℕ → ℕ → ℕ → ℕ
  | 0, _, _ => 0
  | fuel + 1, p, n => if 2 ≤ p ∧ n ≠ 0 ∧ n % p = 0 then 1 + pv_aux fuel p (n / p) else 0

/-- Digits of the decimal expansion of N divided by ten to the k: the
integer digits, then for positive k a dot and exactly k fraction digits. -/
def rat_to_body (N k : ℕ) : List Char :=
  if k = 0 then nat_to_chars N
  else nat_to_chars (N / 10 ^ k) ++ '.' ::
    (List.replicate (k - (nat_to_chars (N % 10 ^ k)).length) '0' ++ nat_to_chars (N % 10 ^ k))

/-- Smallest exponent k with the denominator dividing ten to the k, for
denominators with no prime factors beyond 2 and 5. -/
def dec_exp (d : ℕ) : ℕ :=
  max (pv_aux d 2 d) (pv_aux d 5 d)

/-- Decimal rendering of a rational whose denominator divides a power of
ten, modelling the Display implementation of f32 for the values produced
by the parser model. The final branch is unreachable for such rationals. -/
def rat_to_chars (q : ℚ) : List Char :=
  if 10 ^ dec_exp q.den % q.den = 0 then
    if q < 0 then
      '-' :: rat_to_body (q.num.natAbs * (10 ^ dec_exp q.den / q.den)) (dec_exp q.den)
    else rat_to_body (q.num.natAbs * (10 ^ dec_exp q.den / q.den)) (dec_exp q.den)
  else ['0']

/-- Rationals that are exact decimals: the denominator divides a power of
ten. Every value produced by the f32 parser model satisfies this. -/
def dec_den (q : ℚ) : Prop :=
  ∃ k : ℕ, (q.den : ℤ) ∣ (10 : ℤ) ^ k

/-! The error type. The enum in error.rs declares the HTTP-severity
variants; the image modules additionally construct the grammar- and
codec-specific variants listed after them, which are modelled as given
by their construction sites. Every variant carries its message. -/

inductive IiifError where
  | invalidIiifURL (msg : List Char)
  | imageOpenFailed (msg : List Char)
  | badRequest (msg : List Char)
  | unauthorized (msg : List Char)
  | forbidden (msg : List Char)
  | notFound (msg : List Char)
  | internalServerError (msg : List Char)
  | notImplemented (msg : List Char)
  | serviceUnavailable (msg : List Char)
  | invalidRegionFormat (msg : List Char)
  | regionIsInvalid (msg : List Char)
  | invalidSizeFormat (msg : List Char)
  | invalidQualityFormat (msg : List Char)
  | invalidFormat (msg : List Char)
  | imageEncodeFailed (msg : List Char)
deriving DecidableEq

/-- Classifier for the 501 error class of error.rs: true exactly on the
NotImplemented variant. -/
def IiifError.is_not_implemented : IiifError → Bool
  | .notImplemented _ => true
  | _ => false

/-! The pixel model. A decoded raster is either an RGBA image or an
eight-bit grayscale image, with total pixel functions; channel values are
naturals. The pixel-level operations of the external image and imageproc
crates are opaque parameters collected in RasterOps. -/

/-- Model of image::DynamicImage restricted to the constructors the crate
produces: an RGBA pixel raster or a Luma8 raster. -/
inductive DynImg where
  | rgba (w h : ℕ) (px : ℕ → ℕ → ℕ × ℕ × ℕ × ℕ)
  | luma (w h : ℕ) (px : ℕ → ℕ → ℕ)

def DynImg.width : DynImg → ℕ
  | .rgba w _ _ => w
  | .luma w _ _ => w

def DynImg.height : DynImg → ℕ
  | .rgba _ h _ => h
  | .luma _ h _ => h

/-- Opaque operations supplied by the external raster crates: the exact
axis-aligned transforms, horizontal flip, desaturation, the luminance
conversion to Luma8 pixels, and the general bicubic rotation used for
non-axis-aligned angles. -/
structure RasterOps where
  rotate90 : DynImg → DynImg
  rotate180 : DynImg → DynImg
  rotate270 : DynImg → DynImg
  fliph : DynImg → DynImg
  grayscale : DynImg → DynImg
  lumaOf : ℕ × ℕ × ℕ × ℕ → ℕ
  general : DynImg → ℚ → DynImg

/-- Model of DynamicImage::to_luma8 as a pixel function: RGBA pixels go
through the luminance conversion, Luma8 pixels are returned unchanged. -/
def to_luma8 (ops : RasterOps) : DynImg → ℕ → ℕ → ℕ
  | .rgba _ _ px => fun x y => ops.lumaOf (px x y)
  | .luma _ _ px => px

/-! Region: the crop-window parameter, from region.rs. -/

inductive Region where
  | full
  | square
  | rect (x y w h : ℕ)
  | pct (x y w h : ℚ)
deriving DecidableEq

/-- Display form of a Region, from the Display impl in region.rs. -/
def Region.display : Region → List Char
  | .full => ("full".data)
  | .square => ("square".data)
  | .rect x y w h =>
    nat_to_chars x ++ ',' :: nat_to_chars y ++ ',' :: nat_to_chars w ++ ',' :: nat_to_chars h
  | .pct x y w h =>
    ("pct:".data) ++
      rat_to_chars x ++ ',' :: rat_to_chars y ++ ',' :: rat_to_chars w ++ ',' :: rat_to_chars h

/-- Rectangle branch of Region parsing: exactly four comma-separated
unsigned integers, from Region::parse_rect_coordinates. -/
def Region.parse_rect_coordinates (coords : List Char) : Except IiifError Region :=
  match split_on ',' coords with
  | [a, b, c, d] =>
    match parse_u32 a, parse_u32 b, parse_u32 c, parse_u32 d with
    | some x, some y, some w, some h => .ok (.rect x y w h)
    | _, _, _, _ => .error (.invalidRegionFormat coords)
  | _ => .error (.invalidRegionFormat coords)

/-- Percent branch of Region parsing: exactly four comma-separated
floats, from Region::parse_pct_coordinates. -/
def Region.parse_pct_coordinates (coords : List Char) : Except IiifError Region :=
  match split_on ',' coords with
  | [a, b, c, d] =>
    match parse_f32 a, parse_f32 b, parse_f32 c, parse_f32 d with
    | some x, some y, some w, some h => .ok (.pct x y w h)
    | _, _, _, _ => .error (.invalidRegionFormat coords)
  | _ => .error (.invalidRegionFormat coords)

/-- Model of the FromStr impl for Region: trim and lowercase, match the
keywords, route a pct: prefix to float parsing, any other comma-bearing
string to integer parsing, and reject the rest. -/
def Region.from_str (s : List Char) : Except IiifError Region :=
  let sl := lower_chars (trim_chars s)
  if sl = ("full".data) then .ok .full
  else if sl = ("square".data) then .ok .square
  else
    match strip_pfx ("pct:".data) sl with
    | some rest => Region.parse_pct_coordinates rest
    | none =>
      if ',' ∈ sl then Region.parse_rect_coordinates sl
      else .error (.invalidRegionFormat s)

/-- Rounding of a rational as Rust f32::round does it: half away from zero. -/
def round_away (q : ℚ) : ℤ :=
  if 0 ≤ q then ⌊q + 1 / 2⌋ else -⌊-q + 1 / 2⌋

/-- Model of the Rust cast (expr).round() as u32: round half away from
zero, then saturate into the u32 range. -/
def u32_cast_round (q : ℚ) : ℕ :=
  min (round_away q).toNat (2 ^ 32 - 1)

/-- Model of Region::get_region: resolve the region against the source
dimensions into a pixel crop box (x, y, w, h), or a typed error. -/
def Region.get_region (r : Region) (width height : ℕ) :
    Except IiifError (ℕ × ℕ × ℕ × ℕ) :=
  match r with
  | .full => .ok (0, 0, width, height)
  | .square =>
    let m := min width height
    .ok ((width - m) / 2, (height - m) / 2, m, m)
  | .rect x y w h =>
    if w = 0 ∨ h = 0 then
      .error (.regionIsInvalid (("Width or height is 0: ".data) ++ Region.display r))
    else if x ≥ width ∨ y ≥ height then
      .error (.regionIsInvalid (("X or Y is out of bounds: ".data) ++ Region.display r))
    else .ok (x, y, min w (width - x), min h (height - y))
  | .pct x y w h =>
    if w = 0 ∨ h = 0 then
      .error (.regionIsInvalid (("Width or height is 0: ".data) ++ Region.display r))
    else if x ≥ 100 ∨ y ≥ 100 then
      .error (.regionIsInvalid (("X or Y is out of bounds: ".data) ++ Region.display r))
    else
      let rw := min w (100 - x)
      let rh := min h (100 - y)
      let px := u32_cast_round ((width : ℚ) * (x / 100))
      let py := u32_cast_round ((height : ℚ) * (y / 100))
      let pw := u32_cast_round ((width : ℚ) * (rw / 100))
      let ph := u32_cast_round ((height : ℚ) * (rh / 100))
      .ok (px, py, pw, ph)

/-! Size: the scaling parameter, from size.rs. -/

inductive Size where
  | max
  | cmax
  | w (w : ℕ)
  | cw (w : ℕ)
  | h (h : ℕ)
  | ch (h : ℕ)
  | pct (n : ℕ)
  | cpct (n : ℕ)
  | wh (w h : ℕ)
  | cwh (w h : ℕ)
  | lwh (w h : ℕ)
  | clwh (w h : ℕ)
deriving DecidableEq

/-- Display form of a Size, from the Display impl in size.rs. -/
def Size.display : Size → List Char
  | .max => ("max".data)
  | .cmax => ("^max".data)
  | .w wv => nat_to_chars wv ++ [',']
  | .cw wv => '^' :: nat_to_chars wv ++ [',']
  | .h hv => ',' :: nat_to_chars hv
  | .ch hv => '^' :: ',' :: nat_to_chars hv
  | .pct n => ("pct:".data) ++ nat_to_chars n
  | .cpct n => ("^pct:".data) ++ nat_to_chars n
  | .wh wv hv => nat_to_chars wv ++ ',' :: nat_to_chars hv
  | .cwh wv hv => '^' :: nat_to_chars wv ++ ',' :: nat_to_chars hv
  | .lwh wv hv => '!' :: nat_to_chars wv ++ ',' :: nat_to_chars hv
  | .clwh wv hv => '^' :: '!' :: nat_to_chars wv ++ ',' :: nat_to_chars hv

/-- Split an optional leading caret upscale marker off a size token. -/
def caret_split (sl : List Char) : Bool × List Char :=
  match sl with
  | c :: rest => if c = '^' then (true, rest) else (false, sl)
  | [] => (false, sl)

/-- Percent branch of Size parsing, from Size::parse_pct: an unsigned
integer, bounded by 100 unless the caret upscale flag is set. -/
def Size.parse_pct (pct : List Char) (caret : Bool) : Option Size :=
  match parse_u32 pct with
  | none => none
  | some n => if caret then some (.cpct n) else if n ≤ 100 then some (.pct n) else none

/-- Two-number helper of Size parsing, from Size::parse_two_nums: exactly
two comma-separated unsigned integers. -/
def Size.parse_two_nums (coords : List Char) : Option (ℕ × ℕ) :=
  match split_on ',' coords with
  | [a, b] =>
    match parse_u32 a, parse_u32 b with
    | some wv, some hv => some (wv, hv)
    | _, _ => none
  | _ => none

/-- Confined-fit branch of Size parsing, from Size::parse_fit. -/
def Size.parse_fit (coords : List Char) (caret : Bool) : Option Size :=
  match Size.parse_two_nums coords with
  | none => none
  | some (wv, hv) => some (if caret then .clwh wv hv else .lwh wv hv)

/-- Width and height branch of Size parsing, from Size::parse_dims: two
comma-separated fields, either possibly empty, with a caret allowed on
the height field; the caret applies globally. -/
def Size.parse_dims (content : List Char) (caret : Bool) : Option Size :=
  match split_on ',' content with
  | [p0, p1] =>
    let wv : Option ℕ := if p0 = [] then none else parse_u32 p0
    let hv : Option ℕ :=
      match p1 with
      | [] => none
      | c :: rest => if c = '^' then parse_u32 rest else parse_u32 p1
    let caret' : Bool :=
      match p1 with
      | c :: _ => if c = '^' then true else caret
      | [] => caret
    match wv, hv, caret' with
    | some a, some b, true => some (.cwh a b)
    | some a, some b, false => some (.wh a b)
    | some a, none, true => some (.cw a)
    | some a, none, false => some (.w a)
    | none, some b, true => some (.ch b)
    | none, some b, false => some (.h b)
    | none, none, _ => none
  | _ => none

/-- Dispatch of Size parsing on the leading marker, from
Size::parse_content. -/
def Size.parse_content (content : List Char) (caret : Bool) : Option Size :=
  match strip_pfx ("pct:".data) content with
  | some rest => Size.parse_pct rest caret
  | none =>
    match content with
    | c :: coords =>
      if c = '!' then Size.parse_fit coords caret
      else if ',' ∈ content then Size.parse_dims content caret else none
    | [] => none

/-- Model of the FromStr impl for Size: trim and lowercase, short-circuit
the max keywords, strip the optional caret and dispatch. -/
def Size.from_str (s : List Char) : Except IiifError Size :=
  let sl := lower_chars (trim_chars s)
  if sl = ("max".data) then .ok .max
  else if sl = ("^max".data) then .ok .cmax
  else
    let cc := caret_split sl
    match Size.parse_content cc.2 cc.1 with
    | some size => .ok size
    | none => .error (.invalidSizeFormat sl)

/-! Rotation: the rotation parameter, from rotation.rs. -/

inductive Rotation where
  | degrees (angle : ℚ)
  | mirrorDegrees (angle : ℚ)
deriving DecidableEq

/-- Display form of a Rotation, from the Display impl in rotation.rs. -/
def Rotation.display : Rotation → List Char
  | .degrees angle => rat_to_chars angle
  | .mirrorDegrees angle => '!' :: rat_to_chars angle

/-- Split an optional leading mirror mark off a rotation token. -/
def bang_split (s : List Char) : Bool × List Char :=
  match s with
  | c :: rest => if c = '!' then (true, rest) else (false, s)
  | [] => (false, s)

/-- Model of the FromStr impl for Rotation: an emptiness check on the
trimmed input, then an optional mirror mark stripped from the original
input, and a float parse of the remainder. No range check happens here. -/
def Rotation.from_str (s : List Char) : Except IiifError Rotation :=
  if trim_chars s = [] then .error (.badRequest ("Invalid rotation".data))
  else
    let br := bang_split s
    match parse_f32 br.2 with
    | none => .error (.badRequest ("Invalid rotation".data))
    | some angle => .ok (if br.1 then .mirrorDegrees angle else .degrees angle)

/-- Truncation of a rational toward zero, the f32 trunc used by the Rust
remainder operator. -/
def rat_trunc (q : ℚ) : ℤ :=
  if 0 ≤ q then ⌊q⌋ else ⌈q⌉

/-- Rust f32 remainder: a - b * trunc (a / b). -/
def rat_fmod (a b : ℚ) : ℚ :=
  a - b * rat_trunc (a / b)

/-- Model of is_multiple_of_90 in rotation.rs. -/
def is_multiple_of_90 (angle : ℚ) : Bool :=
  rat_fmod angle 90 = 0

/-- Model of standard_rotate in rotation.rs: the axis-aligned fast path,
with a fall-through that returns the image unchanged. -/
def standard_rotate (ops : RasterOps) (image : DynImg) (angle : ℚ) : DynImg :=
  if angle = 0 then image
  else if angle = 90 then ops.rotate90 image
  else if angle = 180 then ops.rotate180 image
  else if angle = 270 then ops.rotate270 image
  else image

/-- Model of Rotation::process: enforce the inclusive 0 to 360 range,
then take the axis-aligned fast path for multiples of 90 and the general
bicubic rotation otherwise; the mirrored form flips first. -/
def Rotation.process (ops : RasterOps) (r : Rotation) (image : DynImg) :
    Except IiifError DynImg :=
  match r with
  | .degrees angle =>
    if angle < 0 ∨ angle > 360 then
      .error (.badRequest ("Rotation angle is out of range".data))
    else if is_multiple_of_90 angle then .ok (standard_rotate ops image angle)
    else .ok (ops.general image angle)
  | .mirrorDegrees angle =>
    if angle < 0 ∨ angle > 360 then
      .error (.badRequest ("Rotation angle is out of range".data))
    else
      let flipped := ops.fliph image
      if is_multiple_of_90 angle then .ok (standard_rotate ops flipped angle)
      else .ok (ops.general flipped angle)

/-! Quality: the pixel-quality parameter, from quality.rs. -/

inductive Quality where
  | default
  | color
  | gray
  | bitonal
deriving DecidableEq

/-- Display form of a Quality, from the Display impl in quality.rs. -/
def Quality.display : Quality → List Char
  | .default => ("default".data)
  | .color => ("color".data)
  | .gray => ("gray".data)
  | .bitonal => ("bitonal".data)

/-- Model of the FromStr impl for Quality: trim, lowercase, and match the
closed keyword set. -/
def Quality.from_str (s : List Char) : Except IiifError Quality :=
  let sl := lower_chars (trim_chars s)
  if sl = ("default".data) then .ok .default
  else if sl = ("color".data) then .ok .color
  else if sl = ("gray".data) then .ok .gray
  else if sl = ("bitonal".data) then .ok .bitonal
  else .error (.invalidQualityFormat s)

/-- Model of Quality::process: Default and Color are the identity, Gray
delegates to the desaturation of the raster crate, Bitonal converts to
Luma8 and thresholds every pixel at the fixed constant 170, mapping
values strictly above it to 255 and all others to 0. -/
def Quality.process (ops : RasterOps) (q : Quality) (image : DynImg) :
    Except IiifError DynImg :=
  match q with
  | .default => .ok image
  | .color => .ok image
  | .gray => .ok (ops.grayscale image)
  | .bitonal =>
    let gray := to_luma8 ops image
    .ok (.luma image.width image.height
      (fun x y => if gray x y > 170 then 255 else 0))

/-! Format: the output-encoding parameter, from format.rs. -/

inductive Format where
  | jpg
  | tif
  | png
  | gif
  | jp2
  | pdf
  | webp
deriving DecidableEq

/-- Display form of a Format, from the Display impl in format.rs. -/
def Format.display : Format → List Char
  | .jpg => ("jpg".data)
  | .tif => ("tif".data)
  | .png => ("png".data)
  | .gif => ("gif".data)
  | .jp2 => ("jp2".data)
  | .pdf => ("pdf".data)
  | .webp => ("webp".data)

/-- Model of the FromStr impl for Format: trim, lowercase, and match the
closed keyword set. -/
def Format.from_str (s : List Char) : Except IiifError Format :=
  let sl := lower_chars (trim_chars s)
  if sl = ("jpg".data) then .ok .jpg
  else if sl = ("tif".data) then .ok .tif
  else if sl = ("png".data) then .ok .png
  else if sl = ("gif".data) then .ok .gif
  else if sl = ("jp2".data) then .ok .jp2
  else if sl = ("pdf".data) then .ok .pdf
  else if sl = ("webp".data) then .ok .webp
  else .error (.invalidFormat s)

/-- Model of Format::get_content_type. -/
def Format.get_content_type : Format → List Char
  | .jpg => ("image/jpeg".data)
  | .png => ("image/png".data)
  | .gif => ("image/gif".data)
  | .webp => ("image/webp".data)
  | .tif => ("image/tiff".data)
  | .jp2 => ("image/jp2".data)
  | .pdf => ("application/pdf".data)

/-- Opaque encoders of the external codec crates consumed by
Format::process, each producing bytes or a codec error message, plus the
PDF assembly modelled as a function of the JPEG payload and dimensions. -/
structure CodecOps where
  jpegEncode : DynImg → Except (List Char) (List ℕ)
  pngEncode : DynImg → Except (List Char) (List ℕ)
  gifEncode : DynImg → Except (List Char) (List ℕ)
  tiffEncode : DynImg → Except (List Char) (List ℕ)
  webpEncode : DynImg → Except (List Char) (List ℕ)
  pdfAssemble : List ℕ → ℕ → ℕ → Except (List Char) (List ℕ)

/-- Model of Format::process: delegate to the codec for the raster
formats, fail for JPEG 2000 with the encode-failed variant, and assemble
the PDF container around an internal JPEG encode. -/
def Format.process (codec : CodecOps) (f : Format) (image : DynImg) :
    Except IiifError (List ℕ) :=
  match f with
  | .jpg => (codec.jpegEncode image).mapError IiifError.imageEncodeFailed
  | .png => (codec.pngEncode image).mapError IiifError.imageEncodeFailed
  | .webp => (codec.webpEncode image).mapError IiifError.imageEncodeFailed
  | .gif => (codec.gifEncode image).mapError IiifError.imageEncodeFailed
  | .tif => (codec.tiffEncode image).mapError IiifError.imageEncodeFailed
  | .jp2 => .error (.imageEncodeFailed ("JPEG 2000 encoding not yet implemented".data))
  | .pdf =>
    match (codec.jpegEncode image).mapError IiifError.imageEncodeFailed with
    | .error e => .error e
    | .ok jpeg =>
      (codec.pdfAssemble jpeg image.width image.height).mapError IiifError.imageEncodeFailed

/-! The request record and its canonical string, from image/mod.rs. -/

/-- Characters the urlencoding crate leaves unescaped: ASCII letters,
digits, hyphen, underscore, dot and tilde. -/
def unreserved (c : Char) : Bool :=
  digit? c || (97 ≤ c.toNat && c.toNat ≤ 122) || (65 ≤ c.toNat && c.toNat ≤ 90) ||
    c = '-' || c = '_' || c = '.' || c = '~'

/-- Uppercase hexadecimal digit for a value below sixteen. -/
def hex_char (n : ℕ) : Char :=
  if n < 10 then digit_char n else Char.ofNat (55 + n)

/-- Standard UTF-8 encoding of one scalar value as a byte list. -/
def utf8_bytes (c : Char) : List ℕ :=
  let n := c.toNat
  if n < 128 then [n]
  else if n < 2048 then [192 + n / 64, 128 + n % 64]
  else if n < 65536 then [224 + n / 4096, 128 + n / 64 % 64, 128 + n % 64]
  else [240 + n / 262144, 128 + n / 4096 % 64, 128 + n / 64 % 64, 128 + n % 64]

/-- Model of urlencoding::encode: unreserved characters pass through, any
other character is percent-encoded byte by byte with uppercase hex. -/
def url_encode (l : List Char) : List Char :=
  (l.map (fun c =>
    if unreserved c then [c]
    else ((utf8_bytes c).map (fun b => '%' :: hex_char (b / 16) :: [hex_char (b % 16)])).flatten)).flatten

/-- Model of the IiifImage request record of image/mod.rs. -/
structure IiifImage where
  identifier : List Char
  region : Region
  size : Size
  rotation : Rotation
  quality : Quality
  format : Format

/-- Model of the Display impl for IiifImage, the canonical string used as
the derivative cache key: encoded identifier, then the five parameter
segments with the quality and format joined by a dot. -/
def IiifImage.to_string (img : IiifImage) : List Char :=
  url_encode img.identifier ++ '/' ::
    (Region.display img.region ++ '/' ::
      (Size.display img.size ++ '/' ::
        (Rotation.display img.rotation ++ '/' ::
          (Quality.display img.quality ++ '.' :: Format.display img.format))))

/-! Real-valued model of the general rotation canvas of rotation.rs. The
source computes the rotated canvas size with f32 trigonometry; the model
uses exact real trigonometry and the same rounding and saturating cast. -/

/-- Rounding of a real as Rust f32::round does it: half away from zero. -/
noncomputable def round_away_real (r : ℝ) : ℤ :=
  if 0 ≤ r then ⌊r + 1 / 2⌋ else -⌊-r + 1 / 2⌋

/-- Model of the Rust cast (expr).round() as u32 over the reals. -/
noncomputable def u32_cast_round_real (r : ℝ) : ℕ :=
  min (round_away_real r).toNat (2 ^ 32 - 1)

/-- Width of the canvas allocated by the rotate function of rotation.rs
for a w by h image rotated by deg degrees: the angle is converted to
radians and the width is the rounded value of w cos plus h sin, without
absolute values. -/
noncomputable def rotate_canvas_width (w h : ℕ) (deg : ℝ) : ℕ :=
  u32_cast_round_real
    ((w : ℝ) * Real.cos (deg * Real.pi / 180) + (h : ℝ) * Real.sin (deg * Real.pi / 180))

/-- Height of the canvas allocated by the rotate function of rotation.rs:
the rounded value of w sin plus h cos, without absolute values. -/
noncomputable def rotate_canvas_height (w h : ℕ) (deg : ℝ) : ℕ :=
  u32_cast_round_real
    ((w : ℝ) * Real.sin (deg * Real.pi / 180) + (h : ℝ) * Real.cos (deg * Real.pi / 180))

/-- Width of the bounding box actually needed to contain a w by h image
rotated by deg degrees about its center: absolute values of the
trigonometric factors. -/
noncomputable def rotated_extent_width (w h : ℕ) (deg : ℝ) : ℝ :=
  (w : ℝ) * |Real.cos (deg * Real.pi / 180)| + (h : ℝ) * |Real.sin (deg * Real.pi / 180)|

/-! Character-class lemmas used by the parser proofs. -/

theorem char_ofNat_toNat_small {n : ℕ} (h : n < 55296) : (Char.ofNat n).toNat = n := by
  have hv : n.isValidChar := Or.inl h
  simp [Char.ofNat, hv, Char.ofNatAux, Char.toNat, UInt32.toNat, BitVec.toNat_ofNatLt]

theorem lower_char_of_not_upper {c : Char} (h : ¬(65 ≤ c.toNat ∧ c.toNat ≤ 90)) :
    lower_char c = c := by
  simp [lower_char, h]

theorem lower_char_toNat (c : Char) :
    (lower_char c).toNat = if 65 ≤ c.toNat ∧ c.toNat ≤ 90 then c.toNat + 32 else c.toNat := by
  by_cases h : 65 ≤ c.toNat ∧ c.toNat ≤ 90
  · have hlt : c.toNat + 32 < 55296 := by omega
    simp [lower_char, h, char_ofNat_toNat_small hlt]
  · simp [lower_char, h]

theorem lower_char_digit {c : Char} (h : digit? c = true) : lower_char c = c := by
  simp only [digit?, Bool.and_eq_true, decide_eq_true_eq] at h
  exact lower_char_of_not_upper (by omega)

theorem digit_lower_char (c : Char) : digit? (lower_char c) = digit? c := by
  by_cases h : 65 ≤ c.toNat ∧ c.toNat ≤ 90
  · have ht : (lower_char c).toNat = c.toNat + 32 := by
      rw [lower_char_toNat, if_pos h]
    have d1 : digit? (lower_char c) = false := by
      simp only [digit?, ht, Bool.and_eq_false_iff, decide_eq_false_iff_not]
      right; omega
    have d2 : digit? c = false := by
      simp only [digit?, Bool.and_eq_false_iff, decide_eq_false_iff_not]
      right; omega
    rw [d1, d2]
  · rw [lower_char_of_not_upper h]

theorem lower_chars_of_digits {l : List Char} (h : l.all digit? = true) :
    lower_chars l = l := by
  induction l with
  | nil => rfl
  | cons c r ih =>
    simp only [List.all_cons, Bool.and_eq_true] at h
    simp only [lower_chars, List.map_cons] at ih ⊢
    rw [lower_char_digit h.1, ih h.2]

theorem all_digit_lower (l : List Char) : (lower_chars l).all digit? = l.all digit? := by
  induction l with
  | nil => rfl
  | cons c r ih => simp [lower_chars, digit_lower_char] at ih ⊢; rw [ih]

theorem lower_char_ne_plus {c : Char} (h : c ≠ '+') : lower_char c ≠ '+' := by
  intro hl
  by_cases hu : 65 ≤ c.toNat ∧ c.toNat ≤ 90
  · have ht := lower_char_toNat c
    rw [hl, if_pos hu] at ht
    have h43 : ('+').toNat = 43 := by decide
    rw [h43] at ht
    omega
  · exact h (by rwa [lower_char_of_not_upper hu] at hl)

theorem drop_plus_lower (l : List Char) :
    drop_plus (lower_chars l) = lower_chars (drop_plus l) := by
  cases l with
  | nil => rfl
  | cons c r =>
    by_cases hc : c = '+'
    · subst hc
      simp [lower_chars, drop_plus, show lower_char '+' = '+' from by decide]
    · simp [lower_chars, drop_plus, lower_char_ne_plus hc, hc]

theorem parse_u32_core_lower (m : List Char) :
    parse_u32_core (lower_chars m) = parse_u32_core m := by
  cases hb : m.all digit? with
  | true => rw [lower_chars_of_digits hb]
  | false =>
    have hlf : (lower_chars m).all digit? = false := by rw [all_digit_lower, hb]
    simp [parse_u32_core, hb, hlf]

/-- Lowercasing does not change the result of u32 parsing: it fixes
digits and the plus sign and never turns another character into a digit. -/
theorem parse_u32_lower (l : List Char) : parse_u32 (lower_chars l) = parse_u32 l := by
  rw [parse_u32, parse_u32, drop_plus_lower, parse_u32_core_lower]

theorem dropWhile_eq_self_of_head {p : Char → Bool} {c : Char} {l : List Char}
    (h : p c = false) : (c :: l).dropWhile p = c :: l := by
  simp [List.dropWhile_cons, h]

theorem length_dropWhile_le (p : Char → Bool) (l : List Char) :
    (l.dropWhile p).length ≤ l.length := by
  induction l with
  | nil => simp
  | cons c t ih =>
    rw [List.dropWhile_cons]
    by_cases hc : p c = true
    · rw [if_pos hc]
      exact Nat.le_succ_of_le ih
    · rw [if_neg hc]

theorem head_false_of_dropWhile_eq_self {p : Char → Bool} {l : List Char} (hne : l ≠ [])
    (h : l.dropWhile p = l) : ∃ c t, l = c :: t ∧ p c = false := by
  cases l with
  | nil => exact absurd rfl hne
  | cons c t =>
    refine ⟨c, t, rfl, ?_⟩
    by_cases hc : p c = true
    · exfalso
      rw [List.dropWhile_cons, if_pos hc] at h
      have hlen := length_dropWhile_le p t
      have hcg := congrArg List.length h
      simp at hcg
      omega
    · exact Bool.not_eq_true _ ▸ hc

theorem trim_right_of_trim_right_cons {c : Char} {m : List Char} (hne : m ≠ [])
    (h : trim_right m = m) : trim_right (c :: m) = c :: m := by
  have hrev : m.reverse.dropWhile is_ws = m.reverse := by
    have := congrArg List.reverse h
    rwa [trim_right, List.reverse_reverse] at this
  obtain ⟨d, t, hdt, hd⟩ :=
    head_false_of_dropWhile_eq_self (by simpa using hne) hrev
  rw [trim_right, List.reverse_cons, hdt]
  have he : (d :: t) ++ [c] = d :: (t ++ [c]) := rfl
  rw [he, dropWhile_eq_self_of_head hd, ← he, ← hdt, List.reverse_append,
    List.reverse_reverse]
  rfl

theorem trim_chars_cons_of_not_ws {c : Char} {l : List Char} (hc : is_ws c = false) :
    trim_chars (c :: l) = trim_right (c :: l) := by
  rw [trim_chars, List.dropWhile_cons, if_neg (by simp [hc])]

/-! Lemmas about f32 parse failure modes. -/

theorem parse_f32_nil : parse_f32 [] = none := rfl

theorem parse_f32_head_bad {c : Char} (r : List Char) (hd : digit? c = false)
    (h1 : c ≠ '-') (h2 : c ≠ '+') (h3 : c ≠ '.') : parse_f32 (c :: r) = none := by
  have hs : split_sign (c :: r) = (false, c :: r) := by simp [split_sign, h1, h2]
  have htw : (c :: r).takeWhile digit? = [] := by simp [List.takeWhile_cons, hd]
  have hdw : (c :: r).dropWhile digit? = c :: r := by simp [List.dropWhile_cons, hd]
  have hds : dot_split (c :: r) = ([], c :: r) := by simp [dot_split, h3]
  simp [parse_f32, hs, htw, hdw, hds]

theorem parse_f32_ws_head {c : Char} (r : List Char) (hw : is_ws c = true) :
    parse_f32 (c :: r) = none := by
  simp only [is_ws, Bool.or_eq_true, decide_eq_true_eq] at hw
  apply parse_f32_head_bad
  · simp only [digit?, Bool.and_eq_false_iff, decide_eq_false_iff_not]
    rcases hw with ((h | h) | h) | h <;> (left; omega)
  · intro he; rw [he] at hw; revert hw; decide
  · intro he; rw [he] at hw; revert hw; decide
  · intro he; rw [he] at hw; revert hw; decide

theorem dropWhile_append_singleton_ne {p : Char → Bool} {c : Char} (hc : p c = false)
    (xs : List Char) : List.dropWhile p (xs ++ [c]) ≠ [] := by
  induction xs with
  | nil => simp [List.dropWhile_cons, hc]
  | cons x t ih =>
    rw [List.cons_append, List.dropWhile_cons]
    by_cases hx : p x = true
    · rw [if_pos hx]; exact ih
    · rw [if_neg hx]; simp

theorem trim_nil_cases {l : List Char} (h : trim_chars l = []) :
    l = [] ∨ ∃ c r, l = c :: r ∧ is_ws c = true := by
  cases l with
  | nil => exact Or.inl rfl
  | cons c r =>
    right
    cases hwsc : is_ws c with
    | true => exact ⟨c, r, rfl, hwsc⟩
    | false =>
      exfalso
      rw [trim_chars, List.dropWhile_cons, if_neg (by simp [hwsc]), trim_right] at h
      have h2 := congrArg List.reverse h
      rw [List.reverse_reverse] at h2
      rw [List.reverse_cons] at h2
      exact dropWhile_append_singleton_ne hwsc r.reverse h2

/-! Lemmas for the render and reparse round trip of rationals. -/

theorem pv_aux_spec :
    ∀ (fuel p n : ℕ), n ≤ fuel → 2 ≤ p → n ≠ 0 →
      p ^ pv_aux fuel p n ∣ n ∧ ¬ p ^ (pv_aux fuel p n + 1) ∣ n := by
  intro fuel
  induction fuel with
  | zero => intro p n h hp hn; omega
  | succ fuel ih =>
    intro p n h hp hn
    rw [pv_aux]
    by_cases hmod : n % p = 0
    · rw [if_pos ⟨hp, hn, hmod⟩]
      have hdvd : p ∣ n := Nat.dvd_of_mod_eq_zero hmod
      have hqe : n / p * p = n := Nat.div_mul_cancel hdvd
      have hq : n / p ≠ 0 := by
        intro h0
        rw [h0, Nat.zero_mul] at hqe
        exact hn hqe.symm
      have hle : n / p ≤ fuel := by
        have := Nat.div_lt_self (Nat.pos_of_ne_zero hn) hp
        omega
      obtain ⟨ih1, ih2⟩ := ih p (n / p) hle hp hq
      constructor
      · have hstep : p ^ pv_aux fuel p (n / p) * p ∣ n / p * p :=
          Nat.mul_dvd_mul_right ih1 p
        rw [hqe] at hstep
        calc p ^ (1 + pv_aux fuel p (n / p)) = p ^ pv_aux fuel p (n / p) * p := by ring
        _ ∣ n := hstep
      · intro hc
        apply ih2
        have hpw : p ^ (pv_aux fuel p (n / p) + 1) * p = p ^ (1 + pv_aux fuel p (n / p) + 1) := by
          ring
        have hc2 : p ^ (pv_aux fuel p (n / p) + 1) * p ∣ n / p * p := by
          rw [hpw, hqe]
          exact hc
        exact (Nat.mul_dvd_mul_iff_right (show 0 < p by omega)).mp hc2
    · rw [if_neg (fun hcon => hmod hcon.2.2)]
      refine ⟨by simp, ?_⟩
      intro hc
      rw [pow_one] at hc
      obtain ⟨t, rfl⟩ := hc
      exact hmod (by simp [Nat.mul_mod_right])

theorem pv_eq_factorization {p n : ℕ} (hp : p.Prime) (hn : n ≠ 0) :
    pv_aux n p n = n.factorization p := by
  obtain ⟨h1, h2⟩ := pv_aux_spec n p n le_rfl hp.two_le hn
  have ha := (Nat.Prime.pow_dvd_iff_le_factorization hp hn).mp h1
  have hb : ¬ (pv_aux n p n + 1 ≤ n.factorization p) := fun hc =>
    h2 ((Nat.Prime.pow_dvd_iff_le_factorization hp hn).mpr hc)
  omega

theorem den_dvd_pow_max {d : ℕ} (hd : d ≠ 0) {K : ℕ} (h : d ∣ 10 ^ K) :
    d ∣ 10 ^ max (pv_aux d 2 d) (pv_aux d 5 d) := by
  have hpow : (10 : ℕ) ^ max (pv_aux d 2 d) (pv_aux d 5 d) ≠ 0 := by positivity
  have hK : d.factorization ≤ (10 ^ K).factorization :=
    (Nat.factorization_le_iff_dvd hd (by positivity)).mpr h
  apply (Nat.factorization_le_iff_dvd hd hpow).mp
  intro q
  have hfact10 : (10 : ℕ).factorization =
      Finsupp.single 2 1 + Finsupp.single 5 1 := by
    rw [show (10 : ℕ) = 2 * 5 from rfl,
      Nat.factorization_mul (by norm_num) (by norm_num),
      Nat.Prime.factorization Nat.prime_two,
      Nat.Prime.factorization (by norm_num : Nat.Prime 5)]
  by_cases hq2 : q = 2
  · subst hq2
    have e1 : (Finsupp.single 2 1 + Finsupp.single 5 1 : ℕ →₀ ℕ) 2 = 1 := by
      simp [Finsupp.single_apply]
    rw [Nat.factorization_pow, Finsupp.smul_apply, hfact10, e1, smul_eq_mul, mul_one,
      ← pv_eq_factorization Nat.prime_two hd]
    exact le_max_left _ _
  · by_cases hq5 : q = 5
    · subst hq5
      have e1 : (Finsupp.single 2 1 + Finsupp.single 5 1 : ℕ →₀ ℕ) 5 = 1 := by
        simp [Finsupp.single_apply]
      rw [Nat.factorization_pow, Finsupp.smul_apply, hfact10, e1, smul_eq_mul, mul_one,
        ← pv_eq_factorization (by norm_num : Nat.Prime 5) hd]
      exact le_max_right _ _
    · have n2 : ¬ (2 : ℕ) = q := fun he => hq2 he.symm
      have n5 : ¬ (5 : ℕ) = q := fun he => hq5 he.symm
      have e0 : (Finsupp.single 2 1 + Finsupp.single 5 1 : ℕ →₀ ℕ) q = 0 := by
        simp [Finsupp.single_apply, n2, n5]
      have hKq := hK q
      rw [Nat.factorization_pow, Finsupp.smul_apply, hfact10, e0, smul_eq_mul,
        Nat.mul_zero] at hKq
      rw [Nat.le_zero.mp hKq]
      exact Nat.zero_le _

theorem split_sign_digit {c : Char} (t : List Char) (h : digit? c = true) :
    split_sign (c :: t) = (false, c :: t) := by
  have h1 : c ≠ '-' := by
    intro he; subst he; revert h; decide
  have h2 : c ≠ '+' := by
    intro he; subst he; revert h; decide
  simp [split_sign, h1, h2]

theorem split_sign_neg (t : List Char) : split_sign ('-' :: t) = (true, t) := by
  simp [split_sign]

theorem takeWhile_append_bound {p : Char → Bool} {A : List Char} {x : Char} (B : List Char)
    (hA : ∀ c ∈ A, p c = true) (hx : p x = false) :
    (A ++ x :: B).takeWhile p = A ∧ (A ++ x :: B).dropWhile p = x :: B := by
  induction A with
  | nil => simp [List.takeWhile_cons, List.dropWhile_cons, hx]
  | cons a t ih =>
    have ha : p a = true := hA a (List.mem_cons_self a t)
    have ht : ∀ c ∈ t, p c = true := fun c hc => hA c (List.mem_cons_of_mem _ hc)
    obtain ⟨ih1, ih2⟩ := ih ht
    constructor
    · rw [List.cons_append, List.takeWhile_cons, if_pos ha, ih1]
    · rw [List.cons_append, List.dropWhile_cons, if_pos ha, ih2]

/-- Exact rational denoted by an optional sign, integer digits and
fraction digits, as the parser model computes it. -/
def dec_val (neg : Bool) (ipart fpart : List Char) : ℚ :=
  Rat.divInt
    (if neg then -((val_digits ipart * 10 ^ fpart.length + val_digits fpart : ℕ) : ℤ)
     else ((val_digits ipart * 10 ^ fpart.length + val_digits fpart : ℕ) : ℤ))
    (10 ^ fpart.length)

/-- Parsing a signed all-digit string yields its exact value. -/
theorem parse_f32_int {l : List Char} {neg : Bool} {ds : List Char}
    (hsplit : split_sign l = (neg, ds)) (hne : ds ≠ [])
    (hd : ∀ c ∈ ds, digit? c = true) :
    parse_f32 l = some (dec_val neg ds []) := by
  have h1 : ds.takeWhile digit? = ds := List.takeWhile_eq_self_iff.mpr hd
  have h2 : ds.dropWhile digit? = [] := List.dropWhile_eq_nil_iff.mpr hd
  rw [parse_f32]
  rw [hsplit]
  simp only [h1, h2]
  rw [show dot_split [] = ([], []) from rfl]
  rw [if_neg (by simp [hne])]
  rfl

/-- Parsing a signed decimal with a dot yields its exact value. -/
theorem parse_f32_dot {l : List Char} {neg : Bool} {ipart fpart : List Char}
    (hsplit : split_sign l = (neg, ipart ++ '.' :: fpart)) (hip : ipart ≠ [])
    (hipd : ∀ c ∈ ipart, digit? c = true) (hfpd : ∀ c ∈ fpart, digit? c = true) :
    parse_f32 l = some (dec_val neg ipart fpart) := by
  obtain ⟨h1, h2⟩ :=
    takeWhile_append_bound (p := digit?) (A := ipart) (x := '.') fpart hipd (by decide)
  have h3 : fpart.takeWhile digit? = fpart := List.takeWhile_eq_self_iff.mpr hfpd
  have h4 : fpart.dropWhile digit? = [] := List.dropWhile_eq_nil_iff.mpr hfpd
  rw [parse_f32, hsplit]
  simp only [h1, h2]
  rw [show dot_split ('.' :: fpart) = (fpart.takeWhile digit?, fpart.dropWhile digit?)
    from by simp [dot_split]]
  simp only [h3, h4]
  rw [if_neg (by simp [hip])]
  rfl

/-- Leading zeros do not change the value of a digit string. -/
theorem val_digits_replicate_zero (j : ℕ) (ds : List Char) :
    val_digits (List.replicate j '0' ++ ds) = val_digits ds := by
  induction j with
  | zero => rfl
  | succ j ih =>
    rw [List.replicate_succ, List.cons_append]
    show val_digits (List.replicate j '0' ++ ds) = _
    exact ih

theorem replicate_zero_digits (j : ℕ) : ∀ c ∈ List.replicate j '0', digit? c = true := by
  intro c hc
  rw [List.eq_of_mem_replicate hc]
  decide

theorem ntc_aux_len :
    ∀ (fuel n : ℕ) (acc : List Char) (j : ℕ), 1 ≤ j → n < 10 ^ j →
      n < 10 ^ (fuel + 1) → (ntc_aux (fuel + 1) n acc).length ≤ j + acc.length := by
  intro fuel
  induction fuel with
  | zero =>
    intro n acc j hj hnj h
    have hn : n < 10 := by simpa using h
    rw [ntc_aux, if_pos hn]
    simp
    omega
  | succ fuel ih =>
    intro n acc j hj hnj h
    by_cases hn : n < 10
    · rw [ntc_aux, if_pos hn]
      simp
      omega
    · rw [ntc_aux, if_neg hn]
      have hj2 : 2 ≤ j := by
        by_contra hc
        have hj1 : j = 1 := by omega
        rw [hj1] at hnj
        simp at hnj
        omega
      have hdivj : n / 10 < 10 ^ (j - 1) := by
        rw [Nat.div_lt_iff_lt_mul (by norm_num)]
        calc n < 10 ^ j := hnj
        _ = 10 ^ (j - 1) * 10 := by
          rw [← Nat.pow_succ]
          congr 1
          omega
      have hdivf : n / 10 < 10 ^ (fuel + 1) := by
        rw [Nat.div_lt_iff_lt_mul (by norm_num)]
        calc n < 10 ^ (fuel + 2) := h
        _ = 10 ^ (fuel + 1) * 10 := by ring
      have := ih (n / 10) (digit_char (n % 10) :: acc) (j - 1) (by omega) hdivj hdivf
      simp only [List.length_cons] at this
      omega

/-- Digit-count bound for the decimal rendering. -/
theorem nat_to_chars_length_le {m k : ℕ} (hk : 1 ≤ k) (h : m < 10 ^ k) :
    (nat_to_chars m).length ≤ k := by
  have := ntc_aux_len m m [] k hk h (lt_ten_pow_succ m)
  simpa using this

theorem nat_to_chars_cons (m : ℕ) :
    ∃ c t, nat_to_chars m = c :: t ∧ digit? c = true := by
  obtain ⟨hne, hdig, _⟩ := nat_to_chars_spec m
  cases hm : nat_to_chars m with
  | nil => exact absurd hm hne
  | cons c t => exact ⟨c, t, rfl, hdig c (hm ▸ List.mem_cons_self c t)⟩

theorem divInt_scale (q : ℚ) (k : ℕ) (h : q.den ∣ 10 ^ k) :
    Rat.divInt (q.num * ((10 ^ k / q.den : ℕ) : ℤ)) ((10 : ℤ) ^ k) = q := by
  have htpos : 0 < 10 ^ k / q.den :=
    Nat.div_pos (Nat.le_of_dvd (by positivity) h) q.pos
  have hmul : (q.den : ℤ) * ((10 ^ k / q.den : ℕ) : ℤ) = (10 : ℤ) ^ k := by
    have hc := Nat.mul_div_cancel' h
    exact_mod_cast hc
  have htz : ((10 ^ k / q.den : ℕ) : ℤ) ≠ 0 := by positivity
  calc Rat.divInt (q.num * ((10 ^ k / q.den : ℕ) : ℤ)) ((10 : ℤ) ^ k)
      = Rat.divInt (q.num * ((10 ^ k / q.den : ℕ) : ℤ))
          ((q.den : ℤ) * ((10 ^ k / q.den : ℕ) : ℤ)) := by rw [hmul]
  _ = Rat.divInt q.num q.den := Rat.divInt_mul_right htz
  _ = q := Rat.num_divInt_den q

theorem dec_val_eq {q : ℚ} {k : ℕ} (hdvd : q.den ∣ 10 ^ k) {neg : Bool}
    (hneg : neg = true ↔ q < 0) {ipart fpart : List Char} (hlen : fpart.length = k)
    (hval : val_digits ipart * 10 ^ k + val_digits fpart =
      q.num.natAbs * (10 ^ k / q.den)) :
    dec_val neg ipart fpart = q := by
  rw [dec_val, hlen, hval]
  have hsigned : (if neg then -((q.num.natAbs * (10 ^ k / q.den) : ℕ) : ℤ)
      else ((q.num.natAbs * (10 ^ k / q.den) : ℕ) : ℤ)) =
      q.num * ((10 ^ k / q.den : ℕ) : ℤ) := by
    by_cases hq : q < 0
    · rw [if_pos (hneg.mpr hq)]
      push_cast
      rw [abs_of_neg (Rat.num_neg.mpr hq)]
      ring
    · rw [if_neg (fun hc => hq (hneg.mp hc))]
      push_cast
      rw [abs_of_nonneg (Rat.num_nonneg.mpr (not_lt.mp hq))]
  rw [hsigned]
  exact divInt_scale q k hdvd

/-- Parsing the decimal body of a rendered rational: the body is either
pure digits or digits dot digits, and parses to the divInt form. -/
theorem parse_body_int {N : ℕ} :
    (∀ c ∈ rat_to_body N 0, digit? c = true) ∧ rat_to_body N 0 ≠ [] ∧
      val_digits (rat_to_body N 0) = N := by
  obtain ⟨hne, hdig, hval⟩ := nat_to_chars_spec N
  rw [rat_to_body, if_pos rfl]
  exact ⟨hdig, hne, hval⟩

theorem rat_to_body_pos {N k : ℕ} (hk : k ≠ 0) :
    ∃ ipart fpart : List Char,
      rat_to_body N k = ipart ++ '.' :: fpart ∧ ipart ≠ [] ∧
      (∀ c ∈ ipart, digit? c = true) ∧ (∀ c ∈ fpart, digit? c = true) ∧
      fpart.length = k ∧ val_digits ipart = N / 10 ^ k ∧
      val_digits fpart = N % 10 ^ k := by
  obtain ⟨hne1, hdig1, hval1⟩ := nat_to_chars_spec (N / 10 ^ k)
  obtain ⟨hne2, hdig2, hval2⟩ := nat_to_chars_spec (N % 10 ^ k)
  have hlds : (nat_to_chars (N % 10 ^ k)).length ≤ k :=
    nat_to_chars_length_le (by omega) (Nat.mod_lt _ (by positivity))
  refine ⟨nat_to_chars (N / 10 ^ k),
    List.replicate (k - (nat_to_chars (N % 10 ^ k)).length) '0' ++
      nat_to_chars (N % 10 ^ k), ?_, hne1, hdig1, ?_, ?_, hval1, ?_⟩
  · rw [rat_to_body, if_neg hk]
  · intro c hc
    rcases List.mem_append.mp hc with hc | hc
    · exact replicate_zero_digits _ c hc
    · exact hdig2 c hc
  · rw [List.length_append, List.length_replicate]
    omega
  · rw [val_digits_replicate_zero]
    exact hval2

/-- Rendering then reparsing is the identity on every rational whose
denominator divides a power of ten, which covers every value the f32
parser model produces. -/
theorem parse_f32_rat_to_chars {q : ℚ} (hq : dec_den q) :
    parse_f32 (rat_to_chars q) = some q := by
  obtain ⟨K, hK⟩ := hq
  have hKnat : q.den ∣ 10 ^ K := by exact_mod_cast hK
  have hdvd : q.den ∣ 10 ^ dec_exp q.den := den_dvd_pow_max q.den_nz hKnat
  have hcond : 10 ^ dec_exp q.den % q.den = 0 := by
    obtain ⟨t, ht⟩ := hdvd
    rw [ht]
    exact Nat.mul_mod_right _ _
  by_cases hk0 : dec_exp q.den = 0
  · have hden1 : q.den = 1 := by
      rw [hk0] at hdvd
      simpa using hdvd
    obtain ⟨hdig, hne, hval⟩ := parse_body_int (N := q.num.natAbs * (10 ^ (0 : ℕ) / q.den))
    rw [rat_to_chars, if_pos hcond, hk0]
    by_cases hqneg : q < 0
    · rw [if_pos hqneg]
      rw [parse_f32_int (split_sign_neg _) hne hdig]
      congr 1
      refine dec_val_eq (k := 0) (by simp [hden1]) (by simp [hqneg]) rfl ?_
      simpa using hval
    · rw [if_neg hqneg]
      obtain ⟨c, t, hct, hcd⟩ := nat_to_chars_cons (q.num.natAbs * (10 ^ (0 : ℕ) / q.den))
      have hbody0 : rat_to_body (q.num.natAbs * (10 ^ (0 : ℕ) / q.den)) 0 = c :: t := by
        rw [rat_to_body, if_pos rfl, hct]
      rw [hbody0] at hne hdig hval ⊢
      rw [parse_f32_int (split_sign_digit t hcd) hne hdig]
      congr 1
      refine dec_val_eq (k := 0) (by simp [hden1]) (by simp [hqneg]) rfl ?_
      simpa using hval
  · obtain ⟨ipart, fpart, hbody, hipne, hipd, hfpd, hflen, hipval, hfpval⟩ :=
      rat_to_body_pos (N := q.num.natAbs * (10 ^ dec_exp q.den / q.den)) hk0
    have hsum : val_digits ipart * 10 ^ dec_exp q.den + val_digits fpart =
        q.num.natAbs * (10 ^ dec_exp q.den / q.den) := by
      rw [hipval, hfpval, Nat.mul_comm]
      exact Nat.div_add_mod _ _
    rw [rat_to_chars, if_pos hcond]
    by_cases hqneg : q < 0
    · rw [if_pos hqneg, hbody]
      rw [parse_f32_dot (split_sign_neg _) hipne hipd hfpd]
      congr 1
      exact dec_val_eq hdvd (by simp [hqneg]) hflen hsum
    · rw [if_neg hqneg, hbody]
      have hss : split_sign (ipart ++ '.' :: fpart) = (false, ipart ++ '.' :: fpart) := by
        cases ipart with
        | nil => exact absurd rfl hipne
        | cons c t =>
          rw [List.cons_append]
          exact split_sign_digit _ (hipd c (List.mem_cons_self c t))
      rw [parse_f32_dot hss hipne hipd hfpd]
      congr 1
      exact dec_val_eq hdvd (by simp [hqneg]) hflen hsum

theorem parse_u32_lt {l : List Char} {n : ℕ} (h : parse_u32 l = some n) : n < 2 ^ 32 := by
  rw [parse_u32, parse_u32_core] at h
  by_cases hc : drop_plus l ≠ [] ∧ (drop_plus l).all digit? ∧ val_digits (drop_plus l) < 2 ^ 32
  · rw [if_pos hc] at h
    injection h with h'
    rw [← h']
    exact hc.2.2
  · rw [if_neg hc] at h
    cases h

theorem parse_exp_dec_den {m : ℤ} {fl : ℕ} {r : List Char} {q : ℚ}
    (h : parse_exp m fl r = some q) : dec_den q := by
  rw [parse_exp] at h
  split_ifs at h with h1 h2 h3
  · injection h with h'
    exact ⟨fl + val_digits (split_sign r).2, h' ▸ Rat.den_dvd _ _⟩
  · injection h with h'
    refine ⟨0, ?_⟩
    rw [← h', Rat.den_intCast]
    simp
  · injection h with h'
    exact ⟨fl - val_digits (split_sign r).2, h' ▸ Rat.den_dvd _ _⟩

theorem parse_f32_dec_den {l : List Char} {q : ℚ} (h : parse_f32 l = some q) :
    dec_den q := by
  rw [parse_f32] at h
  by_cases hc : (split_sign l).2.takeWhile digit? = [] ∧
      (dot_split ((split_sign l).2.dropWhile digit?)).1 = []
  · rw [if_pos hc] at h
    cases h
  · rw [if_neg hc] at h
    cases htl : (dot_split ((split_sign l).2.dropWhile digit?)).2 with
    | nil =>
      rw [htl, tail_dispatch] at h
      injection h with h'
      exact ⟨(dot_split ((split_sign l).2.dropWhile digit?)).1.length,
        h' ▸ Rat.den_dvd _ _⟩
    | cons c r3 =>
      rw [htl, tail_dispatch] at h
      by_cases hce : c = 'e' ∨ c = 'E'
      · rw [if_pos hce] at h
        exact parse_exp_dec_den h
      · rw [if_neg hce] at h
        cases h

/-! Character classes of rendered tokens, used to push renders through
the trim, lowercase and split steps of the parsers. -/

theorem rat_to_body_chars (N k : ℕ) :
    ∀ c ∈ rat_to_body N k, digit? c = true ∨ c = '.' := by
  intro c hc
  rw [rat_to_body] at hc
  by_cases hk : k = 0
  · rw [if_pos hk] at hc
    exact Or.inl ((nat_to_chars_spec N).2.1 c hc)
  · rw [if_neg hk] at hc
    rcases List.mem_append.mp hc with hc | hc
    · exact Or.inl ((nat_to_chars_spec _).2.1 c hc)
    · rcases List.mem_cons.mp hc with hc | hc
      · exact Or.inr hc
      · rcases List.mem_append.mp hc with hc | hc
        · exact Or.inl (replicate_zero_digits _ c hc)
        · exact Or.inl ((nat_to_chars_spec _).2.1 c hc)

theorem rat_to_chars_chars {q : ℚ} :
    ∀ c ∈ rat_to_chars q, digit? c = true ∨ c = '-' ∨ c = '.' := by
  intro c hc
  rw [rat_to_chars] at hc
  by_cases h1 : 10 ^ dec_exp q.den % q.den = 0
  · rw [if_pos h1] at hc
    by_cases h2 : q < 0
    · rw [if_pos h2] at hc
      rcases List.mem_cons.mp hc with hc | hc
      · exact Or.inr (Or.inl hc)
      · rcases rat_to_body_chars _ _ c hc with h | h
        · exact Or.inl h
        · exact Or.inr (Or.inr h)
    · rw [if_neg h2] at hc
      rcases rat_to_body_chars _ _ c hc with h | h
      · exact Or.inl h
      · exact Or.inr (Or.inr h)
  · rw [if_neg h1] at hc
    rcases List.mem_singleton.mp hc with rfl
    exact Or.inl (by decide)

theorem good_of_digit {c : Char} (h : digit? c = true) :
    is_ws c = false ∧ lower_char c = c :=
  ⟨digit_not_ws h, lower_char_digit h⟩

theorem nat_to_chars_good (n : ℕ) :
    ∀ c ∈ nat_to_chars n, is_ws c = false ∧ lower_char c = c :=
  fun c hc => good_of_digit ((nat_to_chars_spec n).2.1 c hc)

theorem rat_to_chars_good (q : ℚ) :
    ∀ c ∈ rat_to_chars q, is_ws c = false ∧ lower_char c = c := by
  intro c hc
  rcases rat_to_chars_chars c hc with h | h | h
  · exact good_of_digit h
  · subst h; exact ⟨by decide, by decide⟩
  · subst h; exact ⟨by decide, by decide⟩

theorem nat_to_chars_no_comma (n : ℕ) : ',' ∉ nat_to_chars n := by
  intro hc
  have := (nat_to_chars_spec n).2.1 ',' hc
  revert this
  decide

theorem rat_to_chars_no_comma (q : ℚ) : ',' ∉ rat_to_chars q := by
  intro hc
  rcases rat_to_chars_chars ',' hc with h | h | h
  · revert h; decide
  · revert h; decide
  · revert h; decide

theorem mem_class_append {P : Char → Prop} {A B : List Char}
    (hA : ∀ c ∈ A, P c) (hB : ∀ c ∈ B, P c) : ∀ c ∈ A ++ B, P c := by
  intro c hc
  rcases List.mem_append.mp hc with hc | hc
  · exact hA c hc
  · exact hB c hc

theorem mem_class_cons {P : Char → Prop} {x : Char} {A : List Char}
    (hx : P x) (hA : ∀ c ∈ A, P c) : ∀ c ∈ x :: A, P c := by
  intro c hc
  rcases List.mem_cons.mp hc with hc | hc
  · exact hc ▸ hx
  · exact hA c hc

theorem trim_chars_of_no_ws {l : List Char} (h : ∀ c ∈ l, is_ws c = false) :
    trim_chars l = l := by
  rw [trim_chars]
  have h1 : l.dropWhile is_ws = l := by
    cases l with
    | nil => rfl
    | cons c r =>
      rw [List.dropWhile_cons, if_neg (by simp [h c (List.mem_cons_self c r)])]
  rw [h1, trim_right]
  have h2 : l.reverse.dropWhile is_ws = l.reverse := by
    cases hr : l.reverse with
    | nil => rfl
    | cons c r =>
      have hm : c ∈ l := by
        rw [← List.mem_reverse, hr]
        exact List.mem_cons_self c r
      rw [List.dropWhile_cons, if_neg (by simp [h c hm])]
  rw [h2, List.reverse_reverse]

theorem lower_chars_of_fix {l : List Char} (h : ∀ c ∈ l, lower_char c = c) :
    lower_chars l = l := by
  induction l with
  | nil => rfl
  | cons c r ih =>
    rw [lower_chars, List.map_cons, h c (List.mem_cons_self c r)]
    rw [show List.map lower_char r = lower_chars r from rfl,
      ih (fun d hd => h d (List.mem_cons_of_mem _ hd))]

/-- Tokens built from whitespace-free, lowercase-fixed characters pass
the trim and lowercase normalization of the parsers unchanged. -/
theorem norm_fix {l : List Char} (h : ∀ c ∈ l, is_ws c = false ∧ lower_char c = c) :
    lower_chars (trim_chars l) = l := by
  rw [trim_chars_of_no_ws (fun c hc => (h c hc).1),
    lower_chars_of_fix (fun c hc => (h c hc).2)]

theorem digit_ne {c : Char} (h : digit? c = true) {d : Char} (hd : digit? d = false) :
    c ≠ d := by
  intro he
  rw [he, hd] at h
  cases h

theorem cons_ne_of_digit_head {c : Char} {t : List Char} (hcd : digit? c = true)
    {d : Char} {m : List Char} (hd : digit? d = false) : c :: t ≠ d :: m := by
  intro he
  injection he with h1 _
  exact digit_ne hcd hd h1

theorem strip_pfx_cons_ne {p c : Char} (ps cs : List Char) (h : c ≠ p) :
    strip_pfx (p :: ps) (c :: cs) = none := by
  simp [strip_pfx, h]

theorem rat_to_body_cons (N k : ℕ) :
    ∃ c t, rat_to_body N k = c :: t ∧ digit? c = true := by
  rw [rat_to_body]
  by_cases hk : k = 0
  · rw [if_pos hk]
    exact nat_to_chars_cons N
  · rw [if_neg hk]
    obtain ⟨c, t, hct, hcd⟩ := nat_to_chars_cons (N / 10 ^ k)
    exact ⟨c, t ++ '.' :: (List.replicate (k - (nat_to_chars (N % 10 ^ k)).length) '0' ++
      nat_to_chars (N % 10 ^ k)), by rw [hct, List.cons_append], hcd⟩

theorem rat_to_chars_cons (q : ℚ) :
    ∃ c t, rat_to_chars q = c :: t ∧ (digit? c = true ∨ c = '-') := by
  rw [rat_to_chars]
  by_cases h1 : 10 ^ dec_exp q.den % q.den = 0
  · rw [if_pos h1]
    by_cases h2 : q < 0
    · rw [if_pos h2]
      exact ⟨'-', _, rfl, Or.inr rfl⟩
    · rw [if_neg h2]
      obtain ⟨c, t, hct, hcd⟩ :=
        rat_to_body_cons (q.num.natAbs * (10 ^ dec_exp q.den / q.den)) (dec_exp q.den)
      exact ⟨c, t, hct, Or.inl hcd⟩
  · rw [if_neg h1]
    exact ⟨'0', [], rfl, Or.inl (by decide)⟩

/-! Round-trip support for Region. -/

/-- Invariant satisfied by every Region a parse can produce: rectangle
fields fit in u32, percent fields are exact decimals. -/
def region_valid : Region → Prop
  | .full => True
  | .square => True
  | .rect x y w h => x < 2 ^ 32 ∧ y < 2 ^ 32 ∧ w < 2 ^ 32 ∧ h < 2 ^ 32
  | .pct x y w h => dec_den x ∧ dec_den y ∧ dec_den w ∧ dec_den h

theorem cons_append_ne {c d : Char} {l m r : List Char} (hne : c ≠ d) :
    (c :: l) ++ r ≠ d :: m := by
  rw [List.cons_append]
  intro he
  injection he with h1 _
  exact hne h1

theorem from_str_full {s : List Char}
    (h1 : lower_chars (trim_chars s) = ("full".data)) :
    Region.from_str s = .ok .full := by
  rw [Region.from_str, if_pos h1]

theorem from_str_square {s : List Char}
    (h1 : lower_chars (trim_chars s) ≠ ("full".data))
    (h2 : lower_chars (trim_chars s) = ("square".data)) :
    Region.from_str s = .ok .square := by
  rw [Region.from_str, if_neg h1, if_pos h2]

theorem from_str_pct_case (rest : List Char) {s : List Char}
    (h1 : lower_chars (trim_chars s) ≠ ("full".data))
    (h2 : lower_chars (trim_chars s) ≠ ("square".data))
    (hsp : strip_pfx ("pct:".data) (lower_chars (trim_chars s)) = some rest) :
    Region.from_str s = Region.parse_pct_coordinates rest := by
  rw [Region.from_str, if_neg h1, if_neg h2, hsp]

theorem from_str_rect_case {s : List Char}
    (h1 : lower_chars (trim_chars s) ≠ ("full".data))
    (h2 : lower_chars (trim_chars s) ≠ ("square".data))
    (hsp : strip_pfx ("pct:".data) (lower_chars (trim_chars s)) = none)
    (h3 : ',' ∈ lower_chars (trim_chars s)) :
    Region.from_str s = Region.parse_rect_coordinates (lower_chars (trim_chars s)) := by
  rw [Region.from_str, if_neg h1, if_neg h2, hsp]
  show (if ',' ∈ lower_chars (trim_chars s)
      then Region.parse_rect_coordinates (lower_chars (trim_chars s))
      else Except.error (IiifError.invalidRegionFormat s)) =
    Region.parse_rect_coordinates (lower_chars (trim_chars s))
  rw [if_pos h3]

theorem from_str_reject {s : List Char}
    (h1 : lower_chars (trim_chars s) ≠ ("full".data))
    (h2 : lower_chars (trim_chars s) ≠ ("square".data))
    (hsp : strip_pfx ("pct:".data) (lower_chars (trim_chars s)) = none)
    (h3 : ',' ∉ lower_chars (trim_chars s)) :
    Region.from_str s = .error (.invalidRegionFormat s) := by
  rw [Region.from_str, if_neg h1, if_neg h2, hsp]
  show (if ',' ∈ lower_chars (trim_chars s)
      then Region.parse_rect_coordinates (lower_chars (trim_chars s))
      else Except.error (IiifError.invalidRegionFormat s)) =
    Except.error (IiifError.invalidRegionFormat s)
  rw [if_neg h3]

theorem parse_rect_eq {coords a b c d : List Char}
    (hs : split_on ',' coords = [a, b, c, d]) :
    Region.parse_rect_coordinates coords =
      (match parse_u32 a, parse_u32 b, parse_u32 c, parse_u32 d with
        | some x, some y, some w, some hh => Except.ok (Region.rect x y w hh)
        | _, _, _, _ => Except.error (IiifError.invalidRegionFormat coords)) := by
  rw [Region.parse_rect_coordinates.eq_def, hs]

theorem parse_pct_eq {coords a b c d : List Char}
    (hs : split_on ',' coords = [a, b, c, d]) :
    Region.parse_pct_coordinates coords =
      (match parse_f32 a, parse_f32 b, parse_f32 c, parse_f32 d with
        | some x, some y, some w, some hh => Except.ok (Region.pct x y w hh)
        | _, _, _, _ => Except.error (IiifError.invalidRegionFormat coords)) := by
  rw [Region.parse_pct_coordinates.eq_def, hs]

theorem region_parse_valid {s : List Char} {v : Region}
    (h : Region.from_str s = .ok v) : region_valid v := by
  by_cases h1 : lower_chars (trim_chars s) = ("full".data)
  · rw [from_str_full h1] at h
    injection h with h'
    rw [← h']
    trivial
  · by_cases h2 : lower_chars (trim_chars s) = ("square".data)
    · rw [from_str_square h1 h2] at h
      injection h with h'
      rw [← h']
      trivial
    · cases hsp : strip_pfx ("pct:".data) (lower_chars (trim_chars s)) with
      | some rest =>
        rw [from_str_pct_case rest h1 h2 hsp] at h
        rcases hs : split_on ',' rest with _ | ⟨a, _ | ⟨b, _ | ⟨c, _ | ⟨d, _ | ⟨e, f⟩⟩⟩⟩⟩
        · rw [Region.parse_pct_coordinates.eq_def, hs] at h
          exact Except.noConfusion h
        · rw [Region.parse_pct_coordinates.eq_def, hs] at h
          exact Except.noConfusion h
        · rw [Region.parse_pct_coordinates.eq_def, hs] at h
          exact Except.noConfusion h
        · rw [Region.parse_pct_coordinates.eq_def, hs] at h
          exact Except.noConfusion h
        · rw [parse_pct_eq hs] at h
          rcases hpa : parse_f32 a with _ | xa <;> rw [hpa] at h
          · exact Except.noConfusion h
          · rcases hpb : parse_f32 b with _ | xb <;> rw [hpb] at h
            · exact Except.noConfusion h
            · rcases hpc : parse_f32 c with _ | xc <;> rw [hpc] at h
              · exact Except.noConfusion h
              · rcases hpd : parse_f32 d with _ | xd <;> rw [hpd] at h
                · exact Except.noConfusion h
                · injection h with h'
                  rw [← h']
                  exact ⟨parse_f32_dec_den hpa, parse_f32_dec_den hpb,
                    parse_f32_dec_den hpc, parse_f32_dec_den hpd⟩
        · rw [Region.parse_pct_coordinates.eq_def, hs] at h
          exact Except.noConfusion h
      | none =>
        by_cases h3 : ',' ∈ lower_chars (trim_chars s)
        · rw [from_str_rect_case h1 h2 hsp h3] at h
          rcases hs : split_on ',' (lower_chars (trim_chars s)) with
            _ | ⟨a, _ | ⟨b, _ | ⟨c, _ | ⟨d, _ | ⟨e, f⟩⟩⟩⟩⟩
          · rw [Region.parse_rect_coordinates.eq_def, hs] at h
            exact Except.noConfusion h
          · rw [Region.parse_rect_coordinates.eq_def, hs] at h
            exact Except.noConfusion h
          · rw [Region.parse_rect_coordinates.eq_def, hs] at h
            exact Except.noConfusion h
          · rw [Region.parse_rect_coordinates.eq_def, hs] at h
            exact Except.noConfusion h
          · rw [parse_rect_eq hs] at h
            rcases hpa : parse_u32 a with _ | xa <;> rw [hpa] at h
            · exact Except.noConfusion h
            · rcases hpb : parse_u32 b with _ | xb <;> rw [hpb] at h
              · exact Except.noConfusion h
              · rcases hpc : parse_u32 c with _ | xc <;> rw [hpc] at h
                · exact Except.noConfusion h
                · rcases hpd : parse_u32 d with _ | xd <;> rw [hpd] at h
                  · exact Except.noConfusion h
                  · injection h with h'
                    rw [← h']
                    exact ⟨parse_u32_lt hpa, parse_u32_lt hpb,
                      parse_u32_lt hpc, parse_u32_lt hpd⟩
          · rw [Region.parse_rect_coordinates.eq_def, hs] at h
            exact Except.noConfusion h
        · rw [from_str_reject h1 h2 hsp h3] at h
          exact Except.noConfusion h

theorem display_rect_eq (x y w h : ℕ) : Region.display (.rect x y w h) =
    nat_to_chars x ++ ',' ::
      (nat_to_chars y ++ ',' :: (nat_to_chars w ++ ',' :: nat_to_chars h)) := by
  simp only [Region.display, List.append_assoc, List.cons_append]

theorem display_pct_eq (x y w h : ℚ) : Region.display (.pct x y w h) =
    ("pct:".data) ++ (rat_to_chars x ++ ',' ::
      (rat_to_chars y ++ ',' :: (rat_to_chars w ++ ',' :: rat_to_chars h))) := by
  simp only [Region.display, List.append_assoc, List.cons_append]

theorem pct_ne_full (R : List Char) : ("pct:".data) ++ R ≠ ("full".data) := by
  intro he
  have h0 : ('p' : Char) = 'f' := congrArg (fun l => List.getD l 0 ' ') he
  exact absurd h0 (by decide)

theorem pct_ne_square (R : List Char) : ("pct:".data) ++ R ≠ ("square".data) := by
  intro he
  have h0 : ('p' : Char) = 's' := congrArg (fun l => List.getD l 0 ' ') he
  exact absurd h0 (by decide)

theorem region_render_parse {v : Region} (hv : region_valid v) :
    Region.from_str (Region.display v) = .ok v := by
  cases v with
  | full => rfl
  | square => rfl
  | rect x y w h =>
    obtain ⟨hx, hy, hw, hh⟩ := hv
    obtain ⟨c, t, hct, hcd⟩ := nat_to_chars_cons x
    have hgood : ∀ ch ∈ Region.display (.rect x y w h),
        is_ws ch = false ∧ lower_char ch = ch := by
      rw [display_rect_eq]
      exact mem_class_append (nat_to_chars_good x)
        (mem_class_cons ⟨by decide, by decide⟩
          (mem_class_append (nat_to_chars_good y)
            (mem_class_cons ⟨by decide, by decide⟩
              (mem_class_append (nat_to_chars_good w)
                (mem_class_cons ⟨by decide, by decide⟩ (nat_to_chars_good h))))))
    have hfix : lower_chars (trim_chars (Region.display (.rect x y w h))) =
        Region.display (.rect x y w h) := norm_fix hgood
    have hD : Region.display (.rect x y w h) = c ::
        (t ++ ',' :: (nat_to_chars y ++ ',' :: (nat_to_chars w ++ ',' :: nat_to_chars h))) := by
      rw [display_rect_eq, hct, List.cons_append]
    have hsplit : split_on ',' (Region.display (.rect x y w h)) =
        [nat_to_chars x, nat_to_chars y, nat_to_chars w, nat_to_chars h] := by
      rw [display_rect_eq]
      rw [split_on_append _ (nat_to_chars_no_comma x),
        split_on_append _ (nat_to_chars_no_comma y),
        split_on_append _ (nat_to_chars_no_comma w),
        split_on_no_sep (nat_to_chars_no_comma h)]
    rw [from_str_rect_case
      (by rw [hfix, hD]; exact cons_ne_of_digit_head hcd (by decide))
      (by rw [hfix, hD]; exact cons_ne_of_digit_head hcd (by decide))
      (by rw [hfix, hD]; exact strip_pfx_cons_ne _ _ (digit_ne hcd (by decide)))
      (by rw [hfix, hD]; simp)]
    rw [hfix, parse_rect_eq hsplit]
    rw [parse_u32_nat_to_chars hx, parse_u32_nat_to_chars hy,
      parse_u32_nat_to_chars hw, parse_u32_nat_to_chars hh]
  | pct x y w h =>
    obtain ⟨hx, hy, hw, hh⟩ := hv
    have hgood : ∀ ch ∈ Region.display (.pct x y w h),
        is_ws ch = false ∧ lower_char ch = ch := by
      rw [display_pct_eq]
      exact mem_class_append (by decide)
        (mem_class_append (rat_to_chars_good x)
          (mem_class_cons ⟨by decide, by decide⟩
            (mem_class_append (rat_to_chars_good y)
              (mem_class_cons ⟨by decide, by decide⟩
                (mem_class_append (rat_to_chars_good w)
                  (mem_class_cons ⟨by decide, by decide⟩ (rat_to_chars_good h)))))))
    have hfix : lower_chars (trim_chars (Region.display (.pct x y w h))) =
        Region.display (.pct x y w h) := norm_fix hgood
    have hsplit : split_on ',' (rat_to_chars x ++ ',' ::
        (rat_to_chars y ++ ',' :: (rat_to_chars w ++ ',' :: rat_to_chars h))) =
        [rat_to_chars x, rat_to_chars y, rat_to_chars w, rat_to_chars h] := by
      rw [split_on_append _ (rat_to_chars_no_comma x),
        split_on_append _ (rat_to_chars_no_comma y),
        split_on_append _ (rat_to_chars_no_comma w),
        split_on_no_sep (rat_to_chars_no_comma h)]
    rw [from_str_pct_case
      (rat_to_chars x ++ ',' ::
        (rat_to_chars y ++ ',' :: (rat_to_chars w ++ ',' :: rat_to_chars h)))
      (by rw [hfix, display_pct_eq]; exact pct_ne_full _)
      (by rw [hfix, display_pct_eq]; exact pct_ne_square _)
      (by rw [hfix, display_pct_eq]; exact strip_pfx_append _ _)]
    rw [parse_pct_eq hsplit]
    rw [parse_f32_rat_to_chars hx, parse_f32_rat_to_chars hy,
      parse_f32_rat_to_chars hw, parse_f32_rat_to_chars hh]

/-! Round-trip support for Size. -/

theorem cons_ne_head {c d : Char} {l m : List Char} (h : c ≠ d) : c :: l ≠ d :: m := by
  intro he
  injection he with h1 _
  exact h h1

theorem split_on_ne_nil (sep : Char) (l : List Char) : split_on sep l ≠ [] := by
  cases l with
  | nil => exact fun h => List.noConfusion h
  | cons c rest =>
    intro h
    rw [split_on] at h
    cases hs : split_on sep rest with
    | nil => rw [hs] at h; exact List.noConfusion h
    | cons hd t =>
      rw [hs] at h
      split_ifs at h <;> exact List.noConfusion h

theorem split_on_cons_sep (sep : Char) (l : List Char) :
    split_on sep (sep :: l) = [] :: split_on sep l := by
  rw [split_on]
  cases split_on sep l with
  | nil => rfl
  | cons hd t =>
    show (if sep = sep then [] :: hd :: t else (sep :: hd) :: t) = [] :: hd :: t
    rw [if_pos rfl]

theorem caret_split_not {c : Char} (h : c ≠ '^') (rest : List Char) :
    caret_split (c :: rest) = (false, c :: rest) := by
  simp [caret_split, h]

theorem caret_split_caret (rest : List Char) :
    caret_split ('^' :: rest) = (true, rest) := by
  simp [caret_split]

theorem pct_append_ne_max (R : List Char) : ("pct:".data) ++ R ≠ ("max".data) := by
  intro he
  have h0 : ('p' : Char) = 'm' := congrArg (fun l => List.getD l 0 ' ') he
  exact absurd h0 (by decide)

theorem pct_append_ne_cmax (R : List Char) : ("pct:".data) ++ R ≠ ("^max".data) := by
  intro he
  have h0 : ('p' : Char) = '^' := congrArg (fun l => List.getD l 0 ' ') he
  exact absurd h0 (by decide)

/-- Canonical displays of the Size constructors. -/
theorem size_display_w (n : ℕ) : Size.display (.w n) = nat_to_chars n ++ [','] := rfl

theorem size_display_cw (n : ℕ) : Size.display (.cw n) = '^' :: (nat_to_chars n ++ [',']) := rfl

theorem size_display_h (n : ℕ) : Size.display (.h n) = ',' :: nat_to_chars n := rfl

theorem size_display_ch (n : ℕ) : Size.display (.ch n) = '^' :: ',' :: nat_to_chars n := rfl

theorem size_display_pct (n : ℕ) :
    Size.display (.pct n) = ("pct:".data) ++ nat_to_chars n := rfl

theorem size_display_cpct (n : ℕ) :
    Size.display (.cpct n) = '^' :: (("pct:".data) ++ nat_to_chars n) := rfl

theorem size_display_wh (a b : ℕ) :
    Size.display (.wh a b) = nat_to_chars a ++ ',' :: nat_to_chars b := rfl

theorem size_display_cwh (a b : ℕ) :
    Size.display (.cwh a b) = '^' :: (nat_to_chars a ++ ',' :: nat_to_chars b) := rfl

theorem size_display_lwh (a b : ℕ) :
    Size.display (.lwh a b) = '!' :: (nat_to_chars a ++ ',' :: nat_to_chars b) := rfl

theorem size_display_clwh (a b : ℕ) :
    Size.display (.clwh a b) = '^' :: '!' :: (nat_to_chars a ++ ',' :: nat_to_chars b) := rfl

theorem size_from_str_max {s : List Char}
    (h1 : lower_chars (trim_chars s) = ("max".data)) :
    Size.from_str s = .ok .max := by
  rw [Size.from_str, if_pos h1]

theorem size_from_str_cmax {s : List Char}
    (h1 : lower_chars (trim_chars s) ≠ ("max".data))
    (h2 : lower_chars (trim_chars s) = ("^max".data)) :
    Size.from_str s = .ok .cmax := by
  rw [Size.from_str, if_neg h1, if_pos h2]

theorem size_from_str_eq {s : List Char}
    (h1 : lower_chars (trim_chars s) ≠ ("max".data))
    (h2 : lower_chars (trim_chars s) ≠ ("^max".data)) :
    Size.from_str s =
      (match Size.parse_content (caret_split (lower_chars (trim_chars s))).2
          (caret_split (lower_chars (trim_chars s))).1 with
        | some size => Except.ok size
        | none => Except.error (.invalidSizeFormat (lower_chars (trim_chars s)))) := by
  rw [Size.from_str, if_neg h1, if_neg h2]

theorem size_from_str_case (b : Bool) (content : List Char) {s : List Char}
    (h1 : lower_chars (trim_chars s) ≠ ("max".data))
    (h2 : lower_chars (trim_chars s) ≠ ("^max".data))
    (hcs : caret_split (lower_chars (trim_chars s)) = (b, content)) :
    Size.from_str s =
      (match Size.parse_content content b with
        | some size => Except.ok size
        | none => Except.error (.invalidSizeFormat (lower_chars (trim_chars s)))) := by
  rw [Size.from_str, if_neg h1, if_neg h2, hcs]

theorem parse_content_pct_case {content rest : List Char} {caret : Bool}
    (hsp : strip_pfx ("pct:".data) content = some rest) :
    Size.parse_content content caret = Size.parse_pct rest caret := by
  rw [Size.parse_content.eq_def, hsp]

theorem parse_content_fit {coords : List Char} {caret : Bool}
    (hsp : strip_pfx ("pct:".data) ('!' :: coords) = none) :
    Size.parse_content ('!' :: coords) caret = Size.parse_fit coords caret := by
  rw [Size.parse_content.eq_def, hsp]
  show (if ('!' : Char) = '!' then Size.parse_fit coords caret
      else if ',' ∈ '!' :: coords then Size.parse_dims ('!' :: coords) caret else none) =
    Size.parse_fit coords caret
  rw [if_pos rfl]

theorem parse_content_dims {c : Char} {coords : List Char} {caret : Bool}
    (hsp : strip_pfx ("pct:".data) (c :: coords) = none)
    (hc : c ≠ '!') (hm : ',' ∈ c :: coords) :
    Size.parse_content (c :: coords) caret = Size.parse_dims (c :: coords) caret := by
  rw [Size.parse_content.eq_def, hsp]
  show (if c = '!' then Size.parse_fit coords caret
      else if ',' ∈ c :: coords then Size.parse_dims (c :: coords) caret else none) =
    Size.parse_dims (c :: coords) caret
  rw [if_neg hc, if_pos hm]

theorem parse_content_none {c : Char} {coords : List Char} {caret : Bool}
    (hsp : strip_pfx ("pct:".data) (c :: coords) = none)
    (hc : c ≠ '!') (hm : ',' ∉ c :: coords) :
    Size.parse_content (c :: coords) caret = none := by
  rw [Size.parse_content.eq_def, hsp]
  show (if c = '!' then Size.parse_fit coords caret
      else if ',' ∈ c :: coords then Size.parse_dims (c :: coords) caret else none) = none
  rw [if_neg hc, if_neg hm]

theorem size_two_nums_eq {coords p q : List Char}
    (hs : split_on ',' coords = [p, q]) :
    Size.parse_two_nums coords =
      (match parse_u32 p, parse_u32 q with
        | some wv, some hv => some (wv, hv)
        | _, _ => none) := by
  rw [Size.parse_two_nums.eq_def, hs]

theorem size_parse_dims_eq {content p0 p1 : List Char} {caret : Bool}
    (hs : split_on ',' content = [p0, p1]) :
    Size.parse_dims content caret =
      (match (if p0 = [] then none else parse_u32 p0),
         (match p1 with
           | [] => none
           | c :: rest => if c = '^' then parse_u32 rest else parse_u32 p1),
         (match p1 with
           | c :: _ => if c = '^' then true else caret
           | [] => caret) with
        | some a, some b, true => some (Size.cwh a b)
        | some a, some b, false => some (Size.wh a b)
        | some a, none, true => some (Size.cw a)
        | some a, none, false => some (Size.w a)
        | none, some b, true => some (Size.ch b)
        | none, some b, false => some (Size.h b)
        | none, none, _ => none) := by
  rw [Size.parse_dims.eq_def, hs]

theorem dims_hv_cons {p1 : List Char} {c2 : Char} (t2 : List Char) (hc : c2 ≠ '^') :
    (match c2 :: t2 with
      | [] => (none : Option ℕ)
      | c :: rest => if c = '^' then parse_u32 rest else parse_u32 p1) = parse_u32 p1 := by
  show (if c2 = '^' then parse_u32 t2 else parse_u32 p1) = parse_u32 p1
  rw [if_neg hc]

theorem dims_caret_cons {caret : Bool} {c2 : Char} (t2 : List Char) (hc : c2 ≠ '^') :
    (match c2 :: t2 with
      | c :: _ => if c = '^' then true else caret
      | [] => caret) = caret := by
  show (if c2 = '^' then true else caret) = caret
  rw [if_neg hc]

/-- Invariant satisfied by every Size a parse can produce. -/
def size_valid : Size → Prop
  | .max => True
  | .cmax => True
  | .w n => n < 2 ^ 32
  | .cw n => n < 2 ^ 32
  | .h n => n < 2 ^ 32
  | .ch n => n < 2 ^ 32
  | .pct n => n ≤ 100
  | .cpct n => n < 2 ^ 32
  | .wh a b => a < 2 ^ 32 ∧ b < 2 ^ 32
  | .cwh a b => a < 2 ^ 32 ∧ b < 2 ^ 32
  | .lwh a b => a < 2 ^ 32 ∧ b < 2 ^ 32
  | .clwh a b => a < 2 ^ 32 ∧ b < 2 ^ 32

theorem size_parse_pct_valid {pct : List Char} {caret : Bool} {sz : Size}
    (h : Size.parse_pct pct caret = some sz) : size_valid sz := by
  rw [Size.parse_pct.eq_def] at h
  rcases hn : parse_u32 pct with _ | n <;> rw [hn] at h
  · exact Option.noConfusion h
  · have h2 : (if caret then some (Size.cpct n)
        else if n ≤ 100 then some (Size.pct n) else none) = some sz := h
    split_ifs at h2 with hc hle
    · injection h2 with h'
      rw [← h']
      exact parse_u32_lt hn
    · injection h2 with h'
      rw [← h']
      exact hle

theorem size_parse_pct_ok {l : List Char} {n : ℕ}
    (hn : parse_u32 l = some n) (hle : n ≤ 100) :
    Size.parse_pct l false = some (Size.pct n) := by
  rw [Size.parse_pct.eq_def, hn]
  show (if (false : Bool) then some (Size.cpct n)
      else if n ≤ 100 then some (Size.pct n) else none) = some (Size.pct n)
  rw [if_neg (by decide), if_pos hle]

theorem size_parse_pct_caret_ok {l : List Char} {n : ℕ}
    (hn : parse_u32 l = some n) :
    Size.parse_pct l true = some (Size.cpct n) := by
  rw [Size.parse_pct.eq_def, hn]
  show (if (true : Bool) then some (Size.cpct n)
      else if n ≤ 100 then some (Size.pct n) else none) = some (Size.cpct n)
  rw [if_pos rfl]

theorem size_parse_two_nums_valid {coords : List Char} {a b : ℕ}
    (h : Size.parse_two_nums coords = some (a, b)) : a < 2 ^ 32 ∧ b < 2 ^ 32 := by
  rcases hs : split_on ',' coords with _ | ⟨p, _ | ⟨q, _ | ⟨r, t⟩⟩⟩
  · rw [Size.parse_two_nums.eq_def, hs] at h
    exact Option.noConfusion h
  · rw [Size.parse_two_nums.eq_def, hs] at h
    exact Option.noConfusion h
  · rw [size_two_nums_eq hs] at h
    rcases hp : parse_u32 p with _ | wv <;> rw [hp] at h
    · exact Option.noConfusion h
    · rcases hq : parse_u32 q with _ | hv <;> rw [hq] at h
      · exact Option.noConfusion h
      · injection h with h'
        injection h' with ha hb
        rw [← ha, ← hb]
        exact ⟨parse_u32_lt hp, parse_u32_lt hq⟩
  · rw [Size.parse_two_nums.eq_def, hs] at h
    exact Option.noConfusion h

theorem size_parse_fit_valid {coords : List Char} {caret : Bool} {sz : Size}
    (h : Size.parse_fit coords caret = some sz) : size_valid sz := by
  rw [Size.parse_fit.eq_def] at h
  rcases ht : Size.parse_two_nums coords with _ | ⟨wv, hv⟩ <;> rw [ht] at h
  · exact Option.noConfusion h
  · injection h with h'
    obtain ⟨ha, hb⟩ := size_parse_two_nums_valid ht
    rw [← h']
    cases caret
    · exact ⟨ha, hb⟩
    · exact ⟨ha, hb⟩

theorem size_dims_match_valid {o1 o2 : Option ℕ} {b : Bool} {sz : Size}
    (h1 : ∀ n, o1 = some n → n < 2 ^ 32) (h2 : ∀ n, o2 = some n → n < 2 ^ 32)
    (h : (match o1, o2, b with
        | some a, some bb, true => some (Size.cwh a bb)
        | some a, some bb, false => some (Size.wh a bb)
        | some a, none, true => some (Size.cw a)
        | some a, none, false => some (Size.w a)
        | none, some bb, true => some (Size.ch bb)
        | none, some bb, false => some (Size.h bb)
        | none, none, _ => none) = some sz) : size_valid sz := by
  rcases o1 with _ | a <;> rcases o2 with _ | bb <;> cases b
  · exact Option.noConfusion h
  · exact Option.noConfusion h
  · injection h with h'
    rw [← h']
    exact h2 bb rfl
  · injection h with h'
    rw [← h']
    exact h2 bb rfl
  · injection h with h'
    rw [← h']
    exact h1 a rfl
  · injection h with h'
    rw [← h']
    exact h1 a rfl
  · injection h with h'
    rw [← h']
    exact ⟨h1 a rfl, h2 bb rfl⟩
  · injection h with h'
    rw [← h']
    exact ⟨h1 a rfl, h2 bb rfl⟩

theorem size_parse_dims_valid {content : List Char} {caret : Bool} {sz : Size}
    (h : Size.parse_dims content caret = some sz) : size_valid sz := by
  rcases hs : split_on ',' content with _ | ⟨p0, _ | ⟨p1, _ | ⟨r, t⟩⟩⟩
  · rw [Size.parse_dims.eq_def, hs] at h
    exact Option.noConfusion h
  · rw [Size.parse_dims.eq_def, hs] at h
    exact Option.noConfusion h
  · rw [size_parse_dims_eq hs] at h
    refine size_dims_match_valid ?_ ?_ h
    · intro n hn
      by_cases h0 : p0 = []
      · rw [if_pos h0] at hn
        exact Option.noConfusion hn
      · rw [if_neg h0] at hn
        exact parse_u32_lt hn
    · intro n hn
      cases p1 with
      | nil => exact Option.noConfusion hn
      | cons c2 t2 =>
        have hn2 : (if c2 = '^' then parse_u32 t2 else parse_u32 (c2 :: t2)) = some n := hn
        by_cases hc : c2 = '^'
        · rw [if_pos hc] at hn2
          exact parse_u32_lt hn2
        · rw [if_neg hc] at hn2
          exact parse_u32_lt hn2
  · rw [Size.parse_dims.eq_def, hs] at h
    exact Option.noConfusion h

theorem size_parse_content_valid {content : List Char} {caret : Bool} {sz : Size}
    (h : Size.parse_content content caret = some sz) : size_valid sz := by
  cases hsp : strip_pfx ("pct:".data) content with
  | some rest =>
    rw [parse_content_pct_case hsp] at h
    exact size_parse_pct_valid h
  | none =>
    cases content with
    | nil =>
      rw [show Size.parse_content [] caret = none from rfl] at h
      exact Option.noConfusion h
    | cons c coords =>
      by_cases hc : c = '!'
      · subst hc
        rw [parse_content_fit hsp] at h
        exact size_parse_fit_valid h
      · by_cases hm : ',' ∈ c :: coords
        · rw [parse_content_dims hsp hc hm] at h
          exact size_parse_dims_valid h
        · rw [parse_content_none hsp hc hm] at h
          exact Option.noConfusion h

theorem size_parse_valid {s : List Char} {v : Size}
    (h : Size.from_str s = .ok v) : size_valid v := by
  by_cases h1 : lower_chars (trim_chars s) = ("max".data)
  · rw [size_from_str_max h1] at h
    injection h with h'
    rw [← h']
    trivial
  · by_cases h2 : lower_chars (trim_chars s) = ("^max".data)
    · rw [size_from_str_cmax h1 h2] at h
      injection h with h'
      rw [← h']
      trivial
    · rw [size_from_str_eq h1 h2] at h
      rcases hp : Size.parse_content (caret_split (lower_chars (trim_chars s))).2
          (caret_split (lower_chars (trim_chars s))).1 with _ | sz <;> rw [hp] at h
      · exact Except.noConfusion h
      · injection h with h'
        rw [← h']
        exact size_parse_content_valid hp

theorem size_render_parse {v : Size} (hv : size_valid v) :
    Size.from_str (Size.display v) = .ok v := by
  cases v with
  | max => rfl
  | cmax => rfl
  | w n =>
    obtain ⟨c, t, hct, hcd⟩ := nat_to_chars_cons n
    have hgood : ∀ ch ∈ Size.display (.w n), is_ws ch = false ∧ lower_char ch = ch := by
      rw [size_display_w]
      exact mem_class_append (nat_to_chars_good n) (by decide)
    have hfix : lower_chars (trim_chars (Size.display (.w n))) = Size.display (.w n) :=
      norm_fix hgood
    have hsplit : split_on ',' (c :: (t ++ [','])) = [c :: t, []] := by
      rw [← List.cons_append, ← hct, split_on_append [] (nat_to_chars_no_comma n),
        show split_on ',' [] = [[]] from rfl]
    rw [size_from_str_case false (nat_to_chars n ++ [','])
      (by rw [hfix, size_display_w, hct, List.cons_append]
          exact cons_ne_of_digit_head hcd (by decide))
      (by rw [hfix, size_display_w, hct, List.cons_append]
          exact cons_ne_of_digit_head hcd (by decide))
      (by rw [hfix, size_display_w, hct, List.cons_append]
          exact caret_split_not (digit_ne hcd (by decide)) _)]
    rw [hct, List.cons_append]
    rw [parse_content_dims (strip_pfx_cons_ne _ _ (digit_ne hcd (by decide)))
      (digit_ne hcd (by decide)) (by simp)]
    rw [size_parse_dims_eq hsplit]
    rw [if_neg (List.cons_ne_nil c t)]
    rw [show parse_u32 (c :: t) = some n from by
      rw [← hct]; exact parse_u32_nat_to_chars hv]
  | cw n =>
    obtain ⟨c, t, hct, hcd⟩ := nat_to_chars_cons n
    have hgood : ∀ ch ∈ Size.display (.cw n), is_ws ch = false ∧ lower_char ch = ch := by
      rw [size_display_cw]
      exact mem_class_cons ⟨by decide, by decide⟩
        (mem_class_append (nat_to_chars_good n) (by decide))
    have hfix : lower_chars (trim_chars (Size.display (.cw n))) = Size.display (.cw n) :=
      norm_fix hgood
    have hsplit : split_on ',' (c :: (t ++ [','])) = [c :: t, []] := by
      rw [← List.cons_append, ← hct, split_on_append [] (nat_to_chars_no_comma n),
        show split_on ',' [] = [[]] from rfl]
    rw [size_from_str_case true (nat_to_chars n ++ [','])
      (by rw [hfix, size_display_cw]
          exact cons_ne_head (by decide))
      (by rw [hfix, size_display_cw, hct, List.cons_append]
          intro he
          injection he with _ h2
          exact cons_ne_of_digit_head hcd (by decide) h2)
      (by rw [hfix, size_display_cw]
          exact caret_split_caret _)]
    rw [hct, List.cons_append]
    rw [parse_content_dims (strip_pfx_cons_ne _ _ (digit_ne hcd (by decide)))
      (digit_ne hcd (by decide)) (by simp)]
    rw [size_parse_dims_eq hsplit]
    rw [if_neg (List.cons_ne_nil c t)]
    rw [show parse_u32 (c :: t) = some n from by
      rw [← hct]; exact parse_u32_nat_to_chars hv]
  | h n =>
    obtain ⟨c2, t2, hct, hcd⟩ := nat_to_chars_cons n
    have hgood : ∀ ch ∈ Size.display (.h n), is_ws ch = false ∧ lower_char ch = ch := by
      rw [size_display_h]
      exact mem_class_cons ⟨by decide, by decide⟩ (nat_to_chars_good n)
    have hfix : lower_chars (trim_chars (Size.display (.h n))) = Size.display (.h n) :=
      norm_fix hgood
    have hsplit : split_on ',' (',' :: nat_to_chars n) = [[], nat_to_chars n] := by
      rw [split_on_cons_sep, split_on_no_sep (nat_to_chars_no_comma n)]
    rw [size_from_str_case false (',' :: nat_to_chars n)
      (by rw [hfix, size_display_h]
          exact cons_ne_head (by decide))
      (by rw [hfix, size_display_h]
          exact cons_ne_head (by decide))
      (by rw [hfix, size_display_h]
          exact caret_split_not (by decide) _)]
    rw [parse_content_dims (strip_pfx_cons_ne _ _ (by decide)) (by decide)
      (List.mem_cons_self ',' (nat_to_chars n))]
    rw [size_parse_dims_eq hsplit]
    rw [if_pos rfl]
    rw [hct]
    rw [dims_hv_cons t2 (digit_ne hcd (by decide)),
      dims_caret_cons t2 (digit_ne hcd (by decide))]
    rw [show parse_u32 (c2 :: t2) = some n from by
      rw [← hct]; exact parse_u32_nat_to_chars hv]
  | ch n =>
    obtain ⟨c2, t2, hct, hcd⟩ := nat_to_chars_cons n
    have hgood : ∀ ch ∈ Size.display (.ch n), is_ws ch = false ∧ lower_char ch = ch := by
      rw [size_display_ch]
      exact mem_class_cons ⟨by decide, by decide⟩
        (mem_class_cons ⟨by decide, by decide⟩ (nat_to_chars_good n))
    have hfix : lower_chars (trim_chars (Size.display (.ch n))) = Size.display (.ch n) :=
      norm_fix hgood
    have hsplit : split_on ',' (',' :: nat_to_chars n) = [[], nat_to_chars n] := by
      rw [split_on_cons_sep, split_on_no_sep (nat_to_chars_no_comma n)]
    rw [size_from_str_case true (',' :: nat_to_chars n)
      (by rw [hfix, size_display_ch]
          exact cons_ne_head (by decide))
      (by rw [hfix, size_display_ch]
          intro he
          injection he with _ h2
          exact cons_ne_head (by decide) h2)
      (by rw [hfix, size_display_ch]
          exact caret_split_caret _)]
    rw [parse_content_dims (strip_pfx_cons_ne _ _ (by decide)) (by decide)
      (List.mem_cons_self ',' (nat_to_chars n))]
    rw [size_parse_dims_eq hsplit]
    rw [if_pos rfl]
    rw [hct]
    rw [dims_hv_cons t2 (digit_ne hcd (by decide)),
      dims_caret_cons t2 (digit_ne hcd (by decide))]
    rw [show parse_u32 (c2 :: t2) = some n from by
      rw [← hct]; exact parse_u32_nat_to_chars hv]
  | pct n =>
    have hle : n ≤ 100 := hv
    have hlt : n < 2 ^ 32 := by omega
    have hgood : ∀ ch ∈ Size.display (.pct n), is_ws ch = false ∧ lower_char ch = ch := by
      rw [size_display_pct]
      exact mem_class_append (by decide) (nat_to_chars_good n)
    have hfix : lower_chars (trim_chars (Size.display (.pct n))) = Size.display (.pct n) :=
      norm_fix hgood
    rw [size_from_str_case false (("pct:".data) ++ nat_to_chars n)
      (by rw [hfix, size_display_pct]
          exact pct_append_ne_max _)
      (by rw [hfix, size_display_pct]
          exact pct_append_ne_cmax _)
      (by rw [hfix, size_display_pct,
            show ("pct:".data) ++ nat_to_chars n =
              'p' :: (("ct:".data) ++ nat_to_chars n) from rfl]
          exact caret_split_not (by decide) _)]
    rw [parse_content_pct_case (strip_pfx_append ("pct:".data) (nat_to_chars n))]
    rw [size_parse_pct_ok (parse_u32_nat_to_chars hlt) hle]
  | cpct n =>
    have hgood : ∀ ch ∈ Size.display (.cpct n), is_ws ch = false ∧ lower_char ch = ch := by
      rw [size_display_cpct]
      exact mem_class_cons ⟨by decide, by decide⟩
        (mem_class_append (by decide) (nat_to_chars_good n))
    have hfix : lower_chars (trim_chars (Size.display (.cpct n))) =
        Size.display (.cpct n) := norm_fix hgood
    rw [size_from_str_case true (("pct:".data) ++ nat_to_chars n)
      (by rw [hfix, size_display_cpct]
          exact cons_ne_head (by decide))
      (by rw [hfix, size_display_cpct]
          intro he
          injection he with _ h2
          exact pct_append_ne_max _ h2)
      (by rw [hfix, size_display_cpct]
          exact caret_split_caret _)]
    rw [parse_content_pct_case (strip_pfx_append ("pct:".data) (nat_to_chars n))]
    rw [size_parse_pct_caret_ok (parse_u32_nat_to_chars hv)]
  | wh a b =>
    obtain ⟨ha, hb⟩ := hv
    obtain ⟨c, t, hct, hcd⟩ := nat_to_chars_cons a
    obtain ⟨c2, t2, hct2, hcd2⟩ := nat_to_chars_cons b
    have hgood : ∀ ch ∈ Size.display (.wh a b), is_ws ch = false ∧ lower_char ch = ch := by
      rw [size_display_wh]
      exact mem_class_append (nat_to_chars_good a)
        (mem_class_cons ⟨by decide, by decide⟩ (nat_to_chars_good b))
    have hfix : lower_chars (trim_chars (Size.display (.wh a b))) =
        Size.display (.wh a b) := norm_fix hgood
    have hsplit : split_on ',' (c :: (t ++ ',' :: nat_to_chars b)) =
        [c :: t, nat_to_chars b] := by
      rw [← List.cons_append, ← hct, split_on_append _ (nat_to_chars_no_comma a),
        split_on_no_sep (nat_to_chars_no_comma b)]
    rw [size_from_str_case false (nat_to_chars a ++ ',' :: nat_to_chars b)
      (by rw [hfix, size_display_wh, hct, List.cons_append]
          exact cons_ne_of_digit_head hcd (by decide))
      (by rw [hfix, size_display_wh, hct, List.cons_append]
          exact cons_ne_of_digit_head hcd (by decide))
      (by rw [hfix, size_display_wh, hct, List.cons_append]
          exact caret_split_not (digit_ne hcd (by decide)) _)]
    rw [hct, List.cons_append]
    rw [parse_content_dims (strip_pfx_cons_ne _ _ (digit_ne hcd (by decide)))
      (digit_ne hcd (by decide)) (by simp)]
    rw [size_parse_dims_eq hsplit]
    rw [if_neg (List.cons_ne_nil c t)]
    rw [show parse_u32 (c :: t) = some a from by
      rw [← hct]; exact parse_u32_nat_to_chars ha]
    rw [hct2]
    rw [dims_hv_cons t2 (digit_ne hcd2 (by decide)),
      dims_caret_cons t2 (digit_ne hcd2 (by decide))]
    rw [show parse_u32 (c2 :: t2) = some b from by
      rw [← hct2]; exact parse_u32_nat_to_chars hb]
  | cwh a b =>
    obtain ⟨ha, hb⟩ := hv
    obtain ⟨c, t, hct, hcd⟩ := nat_to_chars_cons a
    obtain ⟨c2, t2, hct2, hcd2⟩ := nat_to_chars_cons b
    have hgood : ∀ ch ∈ Size.display (.cwh a b), is_ws ch = false ∧ lower_char ch = ch := by
      rw [size_display_cwh]
      exact mem_class_cons ⟨by decide, by decide⟩
        (mem_class_append (nat_to_chars_good a)
          (mem_class_cons ⟨by decide, by decide⟩ (nat_to_chars_good b)))
    have hfix : lower_chars (trim_chars (Size.display (.cwh a b))) =
        Size.display (.cwh a b) := norm_fix hgood
    have hsplit : split_on ',' (c :: (t ++ ',' :: nat_to_chars b)) =
        [c :: t, nat_to_chars b] := by
      rw [← List.cons_append, ← hct, split_on_append _ (nat_to_chars_no_comma a),
        split_on_no_sep (nat_to_chars_no_comma b)]
    rw [size_from_str_case true (nat_to_chars a ++ ',' :: nat_to_chars b)
      (by rw [hfix, size_display_cwh]
          exact cons_ne_head (by decide))
      (by rw [hfix, size_display_cwh, hct, List.cons_append]
          intro he
          injection he with _ h2
          exact cons_ne_of_digit_head hcd (by decide) h2)
      (by rw [hfix, size_display_cwh]
          exact caret_split_caret _)]
    rw [hct, List.cons_append]
    rw [parse_content_dims (strip_pfx_cons_ne _ _ (digit_ne hcd (by decide)))
      (digit_ne hcd (by decide)) (by simp)]
    rw [size_parse_dims_eq hsplit]
    rw [if_neg (List.cons_ne_nil c t)]
    rw [show parse_u32 (c :: t) = some a from by
      rw [← hct]; exact parse_u32_nat_to_chars ha]
    rw [hct2]
    rw [dims_hv_cons t2 (digit_ne hcd2 (by decide)),
      dims_caret_cons t2 (digit_ne hcd2 (by decide))]
    rw [show parse_u32 (c2 :: t2) = some b from by
      rw [← hct2]; exact parse_u32_nat_to_chars hb]
  | lwh a b =>
    obtain ⟨ha, hb⟩ := hv
    have hgood : ∀ ch ∈ Size.display (.lwh a b), is_ws ch = false ∧ lower_char ch = ch := by
      rw [size_display_lwh]
      exact mem_class_cons ⟨by decide, by decide⟩
        (mem_class_append (nat_to_chars_good a)
          (mem_class_cons ⟨by decide, by decide⟩ (nat_to_chars_good b)))
    have hfix : lower_chars (trim_chars (Size.display (.lwh a b))) =
        Size.display (.lwh a b) := norm_fix hgood
    have hsplit : split_on ',' (nat_to_chars a ++ ',' :: nat_to_chars b) =
        [nat_to_chars a, nat_to_chars b] := by
      rw [split_on_append _ (nat_to_chars_no_comma a),
        split_on_no_sep (nat_to_chars_no_comma b)]
    rw [size_from_str_case false ('!' :: (nat_to_chars a ++ ',' :: nat_to_chars b))
      (by rw [hfix, size_display_lwh]
          exact cons_ne_head (by decide))
      (by rw [hfix, size_display_lwh]
          exact cons_ne_head (by decide))
      (by rw [hfix, size_display_lwh]
          exact caret_split_not (by decide) _)]
    rw [parse_content_fit (strip_pfx_cons_ne _ _ (by decide))]
    rw [Size.parse_fit.eq_def]
    rw [size_two_nums_eq hsplit]
    rw [parse_u32_nat_to_chars ha, parse_u32_nat_to_chars hb]
    rfl
  | clwh a b =>
    obtain ⟨ha, hb⟩ := hv
    have hgood : ∀ ch ∈ Size.display (.clwh a b), is_ws ch = false ∧ lower_char ch = ch := by
      rw [size_display_clwh]
      exact mem_class_cons ⟨by decide, by decide⟩
        (mem_class_cons ⟨by decide, by decide⟩
          (mem_class_append (nat_to_chars_good a)
            (mem_class_cons ⟨by decide, by decide⟩ (nat_to_chars_good b))))
    have hfix : lower_chars (trim_chars (Size.display (.clwh a b))) =
        Size.display (.clwh a b) := norm_fix hgood
    have hsplit : split_on ',' (nat_to_chars a ++ ',' :: nat_to_chars b) =
        [nat_to_chars a, nat_to_chars b] := by
      rw [split_on_append _ (nat_to_chars_no_comma a),
        split_on_no_sep (nat_to_chars_no_comma b)]
    rw [size_from_str_case true ('!' :: (nat_to_chars a ++ ',' :: nat_to_chars b))
      (by rw [hfix, size_display_clwh]
          exact cons_ne_head (by decide))
      (by rw [hfix, size_display_clwh]
          intro he
          injection he with _ h2
          exact cons_ne_head (by decide) h2)
      (by rw [hfix, size_display_clwh]
          exact caret_split_caret _)]
    rw [parse_content_fit (strip_pfx_cons_ne _ _ (by decide))]
    rw [Size.parse_fit.eq_def]
    rw [size_two_nums_eq hsplit]
    rw [parse_u32_nat_to_chars ha, parse_u32_nat_to_chars hb]
    rfl

/-! Round-trip support for Rotation, Quality and Format. -/

theorem bang_split_not {c : Char} (h : c ≠ '!') (rest : List Char) :
    bang_split (c :: rest) = (false, c :: rest) := by
  simp [bang_split, h]

theorem bang_split_bang (rest : List Char) :
    bang_split ('!' :: rest) = (true, rest) := by
  simp [bang_split]

/-- Invariant satisfied by every Rotation a parse can produce: the angle
is an exact decimal. -/
def rotation_valid : Rotation → Prop
  | .degrees a => dec_den a
  | .mirrorDegrees a => dec_den a

theorem rot_from_str_case (b : Bool) (rest : List Char) {s : List Char}
    (h0 : trim_chars s ≠ []) (hbs : bang_split s = (b, rest)) :
    Rotation.from_str s =
      (match parse_f32 rest with
        | none => Except.error (.badRequest ("Invalid rotation".data))
        | some angle =>
          Except.ok (if b then .mirrorDegrees angle else .degrees angle)) := by
  rw [Rotation.from_str, if_neg h0, hbs]

theorem rotation_parse_valid {s : List Char} {v : Rotation}
    (h : Rotation.from_str s = .ok v) : rotation_valid v := by
  by_cases h0 : trim_chars s = []
  · rw [Rotation.from_str, if_pos h0] at h
    exact Except.noConfusion h
  · rw [rot_from_str_case (bang_split s).1 (bang_split s).2 h0 rfl] at h
    rcases hp : parse_f32 (bang_split s).2 with _ | a <;> rw [hp] at h
    · exact Except.noConfusion h
    · injection h with h'
      rw [← h']
      cases hb : (bang_split s).1
      · exact parse_f32_dec_den hp
      · exact parse_f32_dec_den hp

theorem rotation_render_parse {v : Rotation} (hv : rotation_valid v) :
    Rotation.from_str (Rotation.display v) = .ok v := by
  cases v with
  | degrees a =>
    have hvd : dec_den a := hv
    obtain ⟨c, t, hct, hcd⟩ := rat_to_chars_cons a
    have hnb : c ≠ '!' := by
      rcases hcd with hd | hd
      · exact digit_ne hd (by decide)
      · rw [hd]
        decide
    have hgood : ∀ ch ∈ rat_to_chars a, is_ws ch = false :=
      fun ch hc => (rat_to_chars_good a ch hc).1
    have htrim : trim_chars (rat_to_chars a) = rat_to_chars a :=
      trim_chars_of_no_ws hgood
    rw [rot_from_str_case false (rat_to_chars a)
      (by rw [show Rotation.display (.degrees a) = rat_to_chars a from rfl, htrim, hct]
          exact List.cons_ne_nil c t)
      (by rw [show Rotation.display (.degrees a) = rat_to_chars a from rfl, hct]
          exact bang_split_not hnb t)]
    rw [parse_f32_rat_to_chars hvd]
    rfl
  | mirrorDegrees a =>
    have hvd : dec_den a := hv
    have hgood : ∀ ch ∈ '!' :: rat_to_chars a, is_ws ch = false :=
      mem_class_cons (by decide) (fun ch hc => (rat_to_chars_good a ch hc).1)
    have htrim : trim_chars ('!' :: rat_to_chars a) = '!' :: rat_to_chars a :=
      trim_chars_of_no_ws hgood
    rw [rot_from_str_case true (rat_to_chars a)
      (by rw [show Rotation.display (.mirrorDegrees a) = '!' :: rat_to_chars a from rfl,
            htrim]
          exact List.cons_ne_nil '!' (rat_to_chars a))
      (by rw [show Rotation.display (.mirrorDegrees a) = '!' :: rat_to_chars a from rfl]
          exact bang_split_bang (rat_to_chars a))]
    rw [parse_f32_rat_to_chars hvd]
    rfl

theorem quality_render_parse (v : Quality) :
    Quality.from_str (Quality.display v) = .ok v := by
  cases v <;> rfl

theorem format_render_parse (v : Format) :
    Format.from_str (Format.display v) = .ok v := by
  cases v <;> rfl

/-! Claim theorems. -/

/-- C2: resolving a rectangular region against source dimensions fails
exactly when the width or height is zero or the offset lies outside the
source, and otherwise succeeds with the extents clamped to the image
edge rather than rejected. -/
theorem c2_rect_region_resolution (x y w h width height : ℕ) :
    ((Region.get_region (.rect x y w h) width height).isOk = false ↔
      (w = 0 ∨ h = 0 ∨ x ≥ width ∨ y ≥ height)) ∧
    (¬(w = 0 ∨ h = 0 ∨ x ≥ width ∨ y ≥ height) →
      Region.get_region (.rect x y w h) width height =
        .ok (x, y, min w (width - x), min h (height - y))) := by
  by_cases h1 : w = 0 ∨ h = 0
  · constructor
    · rw [Region.get_region, if_pos h1]
      simp [Except.isOk]
      tauto
    · intro hcond
      exact absurd (by tauto) hcond
  · by_cases h2 : x ≥ width ∨ y ≥ height
    · constructor
      · rw [Region.get_region, if_neg h1, if_pos h2]
        simp [Except.isOk]
        tauto
      · intro hcond
        exact absurd (by tauto) hcond
    · constructor
      · rw [Region.get_region, if_neg h1, if_neg h2]
        simp [Except.isOk]
        tauto
      · intro _
        rw [Region.get_region, if_neg h1, if_neg h2]

/-- Witness for C2: the spec example (125,15,200,200) on a 300 by 200
source resolves to (125,15,175,185), and a degenerate region errors. -/
theorem c2_rect_region_resolution_witness :
    Region.get_region (.rect 125 15 200 200) 300 200 = .ok (125, 15, 175, 185) ∧
    (Region.get_region (.rect 0 0 0 5) 300 200).isOk = false := by
  constructor
  · have h := (c2_rect_region_resolution 125 15 200 200 300 200).2 (by omega)
    rw [h]
    rfl
  · exact (c2_rect_region_resolution 0 0 0 5 300 200).1.mpr (Or.inl rfl)

/-- C3: resolving a percent region against source dimensions fails
exactly when the percent width or height is zero or the percent offset
is at least 100; otherwise the extents are clamped to 100 minus the
offset and each of the four values is converted to pixels independently
against the source dimensions by rounding half away from zero, with the
saturating u32 cast of the source. -/
theorem c3_pct_region_resolution (x y w h : ℚ) (width height : ℕ) :
    ((Region.get_region (.pct x y w h) width height).isOk = false ↔
      (w = 0 ∨ h = 0 ∨ x ≥ 100 ∨ y ≥ 100)) ∧
    (¬(w = 0 ∨ h = 0 ∨ x ≥ 100 ∨ y ≥ 100) →
      Region.get_region (.pct x y w h) width height =
        .ok (u32_cast_round ((width : ℚ) * (x / 100)),
          u32_cast_round ((height : ℚ) * (y / 100)),
          u32_cast_round ((width : ℚ) * (min w (100 - x) / 100)),
          u32_cast_round ((height : ℚ) * (min h (100 - y) / 100)))) := by
  by_cases h1 : w = 0 ∨ h = 0
  · constructor
    · rw [Region.get_region, if_pos h1]
      simp [Except.isOk]
      tauto
    · intro hcond
      exact absurd (by tauto) hcond
  · by_cases h2 : x ≥ 100 ∨ y ≥ 100
    · constructor
      · rw [Region.get_region, if_neg h1, if_pos h2]
        simp [Except.isOk]
        tauto
      · intro hcond
        exact absurd (by tauto) hcond
    · constructor
      · rw [Region.get_region, if_neg h1, if_neg h2]
        simp [Except.isOk]
        tauto
      · intro _
        rw [Region.get_region, if_neg h1, if_neg h2]

/-- Witness for C3: the spec example Pct(41.6,7.5,66.6,100) on a 300 by
200 source resolves to (125,15,175,185), and a degenerate percent region
errors. -/
theorem c3_pct_region_resolution_witness :
    Region.get_region (.pct (41.6 : ℚ) (7.5 : ℚ) (66.6 : ℚ) 100) 300 200 =
      .ok (125, 15, 175, 185) ∧
    (Region.get_region (.pct 0 0 0 5) 300 200).isOk = false := by
  constructor
  · have h := (c3_pct_region_resolution (41.6 : ℚ) (7.5 : ℚ) (66.6 : ℚ) 100 300 200).2
      (by norm_num)
    rw [h]
    have e1 : u32_cast_round (((300 : ℕ) : ℚ) * ((41.6 : ℚ) / 100)) = 125 := by
      norm_num [u32_cast_round, round_away]
      rfl
    have e2 : u32_cast_round (((200 : ℕ) : ℚ) * ((7.5 : ℚ) / 100)) = 15 := by
      norm_num [u32_cast_round, round_away]
      rfl
    have e3 : u32_cast_round (((300 : ℕ) : ℚ) * (min (66.6 : ℚ) (100 - 41.6) / 100)) = 175 := by
      norm_num [u32_cast_round, round_away]
      rfl
    have e4 : u32_cast_round (((200 : ℕ) : ℚ) * (min (100 : ℚ) (100 - 7.5) / 100)) = 185 := by
      norm_num [u32_cast_round, round_away]
      rfl
    rw [e1, e2, e3, e4]
  · exact (c3_pct_region_resolution 0 0 0 5 300 200).1.mpr (Or.inl rfl)

/-- C9: rotation by 360 degrees passes the inclusive range check, is
classified as a multiple of 90, and the axis-aligned fast path returns
the image unchanged, the same result as rotation by 0. -/
theorem c9_rotation_360_identity :
    is_multiple_of_90 360 = true ∧
    ∀ (ops : RasterOps) (img : DynImg),
      Rotation.process ops (.degrees 360) img = .ok img ∧
      Rotation.process ops (.degrees 0) img = .ok img := by
  have h360 : is_multiple_of_90 360 = true := by
    norm_num [is_multiple_of_90, rat_fmod, rat_trunc]
  have h0 : is_multiple_of_90 0 = true := by
    norm_num [is_multiple_of_90, rat_fmod, rat_trunc]
  refine ⟨h360, fun ops img => ⟨?_, ?_⟩⟩
  · rw [Rotation.process, if_neg (by norm_num), if_pos h360]
    norm_num [standard_rotate]
  · rw [Rotation.process, if_neg (by norm_num), if_pos h0]
    norm_num [standard_rotate]

/-- C7: Quality processing is the identity for Default and Color, and
for Bitonal produces a Luma8 image whose pixels are exactly 0 or 255,
thresholded at the fixed constant 170 with values strictly above it
mapped to white, for every image and every luminance conversion. -/
theorem c7_quality_identity_and_bitonal :
    ∀ (ops : RasterOps) (img : DynImg),
      Quality.process ops .default img = .ok img ∧
      Quality.process ops .color img = .ok img ∧
      Quality.process ops .bitonal img =
        .ok (.luma img.width img.height
          (fun x y => if to_luma8 ops img x y > 170 then 255 else 0)) ∧
      ∀ x y : ℕ,
        ((if to_luma8 ops img x y > 170 then (255 : ℕ) else 0) = 0 ∨
          (if to_luma8 ops img x y > 170 then (255 : ℕ) else 0) = 255) ∧
        ((if to_luma8 ops img x y > 170 then (255 : ℕ) else 0) = 255 ↔
          to_luma8 ops img x y > 170) := by
  intro ops img
  refine ⟨rfl, rfl, rfl, fun x y => ?_⟩
  by_cases h : to_luma8 ops img x y > 170 <;> simp [h]

/-- Concrete codec context for counterexamples: every delegated encoder
succeeds with an empty byte list. -/
def trivial_codec : CodecOps :=
  ⟨fun _ => .ok [], fun _ => .ok [], fun _ => .ok [], fun _ => .ok [],
    fun _ => .ok [], fun _ _ _ => .ok []⟩

/-- Concrete one-pixel image for counterexamples. -/
def sample_img : DynImg :=
  .rgba 1 1 (fun _ _ => (0, 0, 0, 255))

/-- Counterexample to C5: on a concrete image the JP2 branch of
Format::process returns the ImageEncodeFailed variant, which is not in
the NotImplemented error class. -/
theorem c5_jp2_error_class_counterexample :
    Format.process trivial_codec .jp2 sample_img =
      .error (.imageEncodeFailed ("JPEG 2000 encoding not yet implemented".data)) ∧
    (IiifError.imageEncodeFailed
      ("JPEG 2000 encoding not yet implemented".data)).is_not_implemented = false := by
  exact ⟨rfl, rfl⟩

/-- C5 amended: Format::process with Jp2 always returns an error and
never encoded bytes, but the error is the ImageEncodeFailed variant with
the message JPEG 2000 encoding not yet implemented, not the
NotImplemented variant of error.rs. -/
theorem c5_jp2_always_encode_failed :
    ∀ (codec : CodecOps) (img : DynImg),
      Format.process codec .jp2 img =
        .error (.imageEncodeFailed ("JPEG 2000 encoding not yet implemented".data)) ∧
      (∀ bytes, Format.process codec .jp2 img ≠ .ok bytes) := by
  intro codec img
  exact ⟨rfl, fun bytes h => by simp [Format.process] at h⟩

/-- Concrete raster operations for witnesses: every delegated pixel
operation is the identity and the luminance conversion is zero. -/
def trivial_ops : RasterOps :=
  ⟨id, id, id, id, id, fun _ => 0, fun img _ => img⟩

/-- C6: Rotation parsing performs no range check: every string whose
optionally mirror-marked remainder parses as a float is accepted with
the exact parsed angle, angles outside 0 to 360 included, while an empty
or non-numeric remainder is a BadRequest error; the inclusive 0 to 360
bound is enforced only by Rotation::process, which rejects any angle
below 0 or above 360 with a BadRequest error before any pixel work. -/
theorem c6_rotation_parse_no_range_check :
    (∀ (l : List Char) (q : ℚ), parse_f32 l = some q →
      Rotation.from_str l = .ok (.degrees q) ∧
      Rotation.from_str ('!' :: l) = .ok (.mirrorDegrees q)) ∧
    (∀ l : List Char, parse_f32 (bang_split l).2 = none →
      Rotation.from_str l = .error (.badRequest ("Invalid rotation".data))) ∧
    (∀ (ops : RasterOps) (q : ℚ) (img : DynImg), q < 0 ∨ q > 360 →
      Rotation.process ops (.degrees q) img =
        .error (.badRequest ("Rotation angle is out of range".data)) ∧
      Rotation.process ops (.mirrorDegrees q) img =
        .error (.badRequest ("Rotation angle is out of range".data))) := by
  refine ⟨?_, ?_, ?_⟩
  · intro l q hp
    cases l with
    | nil => rw [parse_f32_nil] at hp; exact absurd hp (by simp)
    | cons c r =>
      have hws : is_ws c = false := by
        cases hwsc : is_ws c with
        | false => rfl
        | true => rw [parse_f32_ws_head r hwsc] at hp; exact absurd hp (by simp)
      have hbang : c ≠ '!' := by
        intro he
        subst he
        rw [parse_f32_head_bad r (by decide) (by decide) (by decide) (by decide)] at hp
        exact absurd hp (by simp)
      have htrim : trim_chars (c :: r) ≠ [] := by
        intro h0
        rcases trim_nil_cases h0 with h | ⟨d, t, hdt, hdw⟩
        · exact List.cons_ne_nil c r h
        · injection hdt with h1 _
          subst h1
          rw [hws] at hdw
          exact Bool.false_ne_true hdw
      have hb : bang_split (c :: r) = (false, c :: r) := by simp [bang_split, hbang]
      have htrimbang : trim_chars ('!' :: c :: r) ≠ [] := by
        intro h0
        rcases trim_nil_cases h0 with h | ⟨d, t, hdt, hdw⟩
        · exact List.cons_ne_nil _ _ h
        · injection hdt with h1 _
          subst h1
          revert hdw
          decide
      constructor
      · rw [Rotation.from_str, if_neg htrim]
        simp only [hb, hp]
        rfl
      · rw [Rotation.from_str, if_neg htrimbang]
        have hb2 : bang_split ('!' :: c :: r) = (true, c :: r) := by simp [bang_split]
        simp only [hb2, hp]
        rfl
  · intro l hp
    by_cases htr : trim_chars l = []
    · rw [Rotation.from_str, if_pos htr]
    · rw [Rotation.from_str, if_neg htr]
      simp only [hp]
  · intro ops q img h
    constructor
    · rw [Rotation.process, if_pos h]
    · rw [Rotation.process, if_pos h]

/-- Witness for C6: the out-of-range angle 450 parses in both the plain
and the mirrored form, a non-numeric remainder is rejected, and
processing the parsed angle 450 fails the range check. -/
theorem c6_rotation_parse_no_range_check_witness :
    Rotation.from_str ("450".data) = .ok (.degrees 450) ∧
    Rotation.from_str ("!450".data) = .ok (.mirrorDegrees 450) ∧
    Rotation.from_str ("abc".data) = .error (.badRequest ("Invalid rotation".data)) ∧
    Rotation.process trivial_ops (.degrees 450) sample_img =
      .error (.badRequest ("Rotation angle is out of range".data)) := by
  have hp : parse_f32 ("450".data) = some 450 := by
    rw [show parse_f32 ("450".data) = some (Rat.divInt 450 (10 ^ 0)) from rfl]
    norm_num [Rat.divInt_one]
  have h1 := (c6_rotation_parse_no_range_check.1 ("450".data) 450 hp).1
  have h2 := (c6_rotation_parse_no_range_check.1 ("450".data) 450 hp).2
  have h3 := c6_rotation_parse_no_range_check.2.1 ("abc".data) (by
    rw [show (bang_split ("abc".data)).2 = ("abc".data) from rfl]
    exact parse_f32_head_bad _ (by decide) (by decide) (by decide) (by decide))
  have h4 := (c6_rotation_parse_no_range_check.2.2 trivial_ops 450 sample_img
    (Or.inr (by norm_num))).1
  exact ⟨h1, h2, h3, h4⟩

/-- C10: a size token of the pct form whose remainder does not parse as
an unsigned 32-bit integer is rejected, in both the plain and the
upscale-marked form, because the percent payload of Size is stored as an
unsigned integer. The trim hypothesis states that the token carries no
surrounding whitespace. -/
theorem c10_size_pct_rejects_non_integer (r : List Char)
    (htrim : trim_chars (("pct:".data) ++ r) = ("pct:".data) ++ r)
    (hparse : parse_u32 r = none) :
    Size.from_str (("pct:".data) ++ r) =
      .error (.invalidSizeFormat (("pct:".data) ++ lower_chars r)) ∧
    Size.from_str (("^pct:".data) ++ r) =
      .error (.invalidSizeFormat (("^pct:".data) ++ lower_chars r)) := by
  have hlowfix : lower_chars (("pct:".data) ++ r) = ("pct:".data) ++ lower_chars r := by
    simp [lower_chars, List.map_append]
    decide
  have hparselow : parse_u32 (lower_chars r) = none := by
    rw [parse_u32_lower]; exact hparse
  have hconsp : ("pct:".data) ++ r = 'p' :: (("ct:".data) ++ r) := rfl
  have hr : trim_right (("pct:".data) ++ r) = ("pct:".data) ++ r := by
    rw [hconsp] at htrim ⊢
    rwa [trim_chars_cons_of_not_ws (by decide)] at htrim
  have htrimcar : trim_chars (("^pct:".data) ++ r) = ("^pct:".data) ++ r := by
    show trim_chars ('^' :: (("pct:".data) ++ r)) = _
    rw [trim_chars_cons_of_not_ws (by decide),
      trim_right_of_trim_right_cons (by simp [hconsp]) hr]
    rfl
  have hlowfixcar :
      lower_chars (("^pct:".data) ++ r) = ("^pct:".data) ++ lower_chars r := by
    simp [lower_chars, List.map_append]
    decide
  constructor
  · rw [Size.from_str]
    rw [htrim, hlowfix]
    rw [if_neg (by simp [show ("pct:".data) = ['p','c','t',':'] from rfl,
      show ("max".data) = ['m','a','x'] from rfl])]
    rw [if_neg (by simp [show ("pct:".data) = ['p','c','t',':'] from rfl,
      show ("^max".data) = ['^','m','a','x'] from rfl])]
    show (match Size.parse_pct (lower_chars r) false with
      | some size => Except.ok size
      | none =>
        Except.error (IiifError.invalidSizeFormat (("pct:".data) ++ lower_chars r))) =
      Except.error (IiifError.invalidSizeFormat (("pct:".data) ++ lower_chars r))
    simp only [Size.parse_pct, hparselow]
  · rw [Size.from_str]
    rw [htrimcar, hlowfixcar]
    rw [if_neg (by simp [show ("^pct:".data) = ['^','p','c','t',':'] from rfl,
      show ("max".data) = ['m','a','x'] from rfl])]
    rw [if_neg (by simp [show ("^pct:".data) = ['^','p','c','t',':'] from rfl,
      show ("^max".data) = ['^','m','a','x'] from rfl])]
    show (match Size.parse_pct (lower_chars r) true with
      | some size => Except.ok size
      | none =>
        Except.error
          (IiifError.invalidSizeFormat ('^' :: (("pct:".data) ++ lower_chars r)))) =
      Except.error (IiifError.invalidSizeFormat (("^pct:".data) ++ lower_chars r))
    simp only [Size.parse_pct, hparselow]
    rfl

/-- C1: the general-rotation canvas of rotation.rs does not contain the
rotated content for angles past 90 degrees. The bounding-box formula of
the rotate function omits the absolute values on the trigonometric
factors, so at 135 degrees on a 300 by 200 source the computed canvas
width is round(300 cos 135 + 200 sin 135), which is negative and
saturates to 0 in the cast to u32, while the rotated content needs a
width strictly greater than the source width 300. The claim that no
pixel of the rotated source falls outside the computed box is therefore
violated at this input; the loop placing the source into the zero-width
canvas panics in Rust. -/
theorem c1_rotate_canvas_collapse :
    rotate_canvas_width 300 200 135 = 0 ∧
    (300 : ℝ) < rotated_extent_width 300 200 135 := by
  have hθ : (135 : ℝ) * Real.pi / 180 = Real.pi - Real.pi / 4 := by ring
  have hcos : Real.cos ((135 : ℝ) * Real.pi / 180) = -(Real.sqrt 2 / 2) := by
    rw [hθ, Real.cos_pi_sub, Real.cos_pi_div_four]
  have hsin : Real.sin ((135 : ℝ) * Real.pi / 180) = Real.sqrt 2 / 2 := by
    rw [hθ, Real.sin_pi_sub, Real.sin_pi_div_four]
  have hsq : Real.sqrt 2 ^ 2 = 2 := Real.sq_sqrt (by norm_num)
  have hpos : 0 < Real.sqrt 2 := Real.sqrt_pos.mpr (by norm_num)
  have hs2 : (1.2 : ℝ) < Real.sqrt 2 := by nlinarith
  constructor
  · rw [rotate_canvas_width, hcos, hsin]
    have hval : ((300 : ℕ) : ℝ) * (-(Real.sqrt 2 / 2)) + ((200 : ℕ) : ℝ) * (Real.sqrt 2 / 2) =
        -(50 * Real.sqrt 2) := by push_cast; ring
    rw [hval, u32_cast_round_real, round_away_real,
      if_neg (by push_neg; nlinarith)]
    have hfl : (0 : ℤ) ≤ ⌊-(-(50 * Real.sqrt 2)) + 1 / 2⌋ := by
      apply Int.le_floor.mpr
      push_cast
      nlinarith
    rw [Int.toNat_eq_zero.mpr (by omega)]
    simp
  · rw [rotated_extent_width, hcos, hsin]
    rw [abs_of_neg (by nlinarith), abs_of_pos (by nlinarith)]
    push_cast
    nlinarith

/-- C8: the canonical string of an IiifImage is a deterministic function
of its six fields, and two requests that agree on identifier, region,
size, rotation and format but differ in quality always serialize to
different canonical strings, so they never collide as cache keys. -/
theorem c8_cache_key_quality_injective :
    (∀ a b : IiifImage, a.identifier = b.identifier → a.region = b.region →
      a.size = b.size → a.rotation = b.rotation → a.quality = b.quality →
      a.format = b.format → IiifImage.to_string a = IiifImage.to_string b) ∧
    (∀ a b : IiifImage, a.identifier = b.identifier → a.region = b.region →
      a.size = b.size → a.rotation = b.rotation → a.format = b.format →
      a.quality ≠ b.quality → IiifImage.to_string a ≠ IiifImage.to_string b) := by
  constructor
  · intro a b h1 h2 h3 h4 h5 h6
    rw [IiifImage.to_string, IiifImage.to_string, h1, h2, h3, h4, h5, h6]
  · intro a b h1 h2 h3 h4 h5 hq heq
    rw [IiifImage.to_string, IiifImage.to_string, h1, h2, h3, h4, h5] at heq
    have e1 := List.append_cancel_left heq
    injection e1 with _ e2
    have e3 := List.append_cancel_left e2
    injection e3 with _ e4
    have e5 := List.append_cancel_left e4
    injection e5 with _ e6
    have e7 := List.append_cancel_left e6
    injection e7 with _ e8
    cases ha : a.quality <;> cases hb : b.quality <;> rw [ha, hb] at e8 hq <;>
      first
        | exact hq rfl
        | simp [Quality.display] at e8

/-- Witness for C8: two concrete requests differing only in quality have
different canonical strings, and equal fields give the identical string. -/
theorem c8_cache_key_quality_injective_witness :
    IiifImage.to_string ⟨("demo.jpg".data), .full, .max, .degrees 0, .default, .jpg⟩ ≠
      IiifImage.to_string ⟨("demo.jpg".data), .full, .max, .degrees 0, .color, .jpg⟩ ∧
    IiifImage.to_string ⟨("demo.jpg".data), .full, .max, .degrees 0, .default, .jpg⟩ =
      IiifImage.to_string ⟨("demo.jpg".data), .full, .max, .degrees 0, .default, .jpg⟩ := by
  constructor
  · exact c8_cache_key_quality_injective.2 _ _ rfl rfl rfl rfl rfl (by decide)
  · exact c8_cache_key_quality_injective.1 _ _ rfl rfl rfl rfl rfl rfl

/-- Witness for C10: the token pct:50.5 is rejected in both forms. -/
theorem c10_size_pct_rejects_non_integer_witness :
    Size.from_str (("pct:".data) ++ ("50.5".data)) =
      .error (.invalidSizeFormat (("pct:".data) ++ lower_chars ("50.5".data))) ∧
    Size.from_str (("^pct:".data) ++ ("50.5".data)) =
      .error (.invalidSizeFormat (("^pct:".data) ++ lower_chars ("50.5".data))) :=
  c10_size_pct_rejects_non_integer ("50.5".data) (by decide) (by decide)

/-- C4: for every legal textual form s of each of the five parameter
grammars (Region, Size, Rotation, Quality, Format), rendering the parsed
value (with the Display impl) and parsing the rendered string yields a
variant equal to the original parse. -/
theorem c4_parse_render_round_trip :
    (∀ (s : List Char) (v : Region), Region.from_str s = .ok v →
      Region.from_str (Region.display v) = .ok v) ∧
    (∀ (s : List Char) (v : Size), Size.from_str s = .ok v →
      Size.from_str (Size.display v) = .ok v) ∧
    (∀ (s : List Char) (v : Rotation), Rotation.from_str s = .ok v →
      Rotation.from_str (Rotation.display v) = .ok v) ∧
    (∀ (s : List Char) (v : Quality), Quality.from_str s = .ok v →
      Quality.from_str (Quality.display v) = .ok v) ∧
    (∀ (s : List Char) (v : Format), Format.from_str s = .ok v →
      Format.from_str (Format.display v) = .ok v) :=
  ⟨fun _ _ h => region_render_parse (region_parse_valid h),
    fun _ _ h => size_render_parse (size_parse_valid h),
    fun _ _ h => rotation_render_parse (rotation_parse_valid h),
    fun _ v _ => quality_render_parse v,
    fun _ v _ => format_render_parse v⟩

theorem c4_parse_render_round_trip_witness :
    Region.from_str ("125,15,120,140".data) = .ok (.rect 125 15 120 140) ∧
    Region.from_str (Region.display (.rect 125 15 120 140)) = .ok (.rect 125 15 120 140) ∧
    Size.from_str ("!225,100".data) = .ok (.lwh 225 100) ∧
    Size.from_str (Size.display (.lwh 225 100)) = .ok (.lwh 225 100) ∧
    Rotation.from_str ("90".data) = .ok (.degrees 90) ∧
    Rotation.from_str (Rotation.display (.degrees 90)) = .ok (.degrees 90) ∧
    Quality.from_str ("default".data) = .ok .default ∧
    Quality.from_str (Quality.display .default) = .ok .default ∧
    Format.from_str ("jpg".data) = .ok .jpg ∧
    Format.from_str (Format.display .jpg) = .ok .jpg := by
  have hreg : Region.from_str ("125,15,120,140".data) = .ok (.rect 125 15 120 140) := by rfl
  have hsize : Size.from_str ("!225,100".data) = .ok (.lwh 225 100) := by rfl
  have hrot : Rotation.from_str ("90".data) = .ok (.degrees 90) := by
    rw [show Rotation.from_str ("90".data) =
      .ok (.degrees (Rat.divInt 90 (10 ^ 0))) from rfl]
    norm_num [Rat.divInt_one]
  have hq : Quality.from_str ("default".data) = .ok .default := by rfl
  have hf : Format.from_str ("jpg".data) = .ok .jpg := by rfl
  exact ⟨hreg, c4_parse_render_round_trip.1 _ _ hreg,
    hsize, c4_parse_render_round_trip.2.1 _ _ hsize,
    hrot, c4_parse_render_round_trip.2.2.1 _ _ hrot,
    hq, c4_parse_render_round_trip.2.2.2.1 _ _ hq,
    hf, c4_parse_render_round_trip.2.2.2.2 _ _ hf⟩

end Iiif
